import Mathlib

/-
Verification of the EMVCo/Thai-QR payment-slip routines of this repository:
the TLV parser and CRC validator in src/utils/emvco.js and the slip
verification policy in src/server.js (checkout flow).  JavaScript strings
are modelled as lists of characters, JavaScript numbers as exact rationals
(with NaN modelled by `none`), and machine-level bit operations as natural
number operations masked to 16 bits.
-/

/-- JavaScript strings are modelled as lists of characters. -/
abbrev JStr := List Char

/-- JavaScript String.prototype.slice with two integer arguments: a negative
index counts from the end of the string, and both indices are clamped to
the range [0, length]. -/
def jsSlice (s : JStr) (a b : Int) : JStr :=
  let n : Int := s.length
  let lo : Int := if a < 0 then max (n + a) 0 else min a n
  let hi : Int := if b < 0 then max (n + b) 0 else min b n
  if lo < hi then (s.take hi.toNat).drop lo.toNat else []

/-- Value of a decimal digit character. -/
def digitVal? (c : Char) : Option Nat :=
  if '0' ≤ c ∧ c ≤ '9' then some (c.toNat - '0'.toNat) else none

/-- Value of a hexadecimal digit character, either case. -/
def hexVal? (c : Char) : Option Nat :=
  if '0' ≤ c ∧ c ≤ '9' then some (c.toNat - '0'.toNat)
  else if 'a' ≤ c ∧ c ≤ 'f' then some (c.toNat - 'a'.toNat + 10)
  else if 'A' ≤ c ∧ c ≤ 'F' then some (c.toNat - 'A'.toNat + 10)
  else none

/-- JavaScript whitespace accepted by parseInt and Number (ASCII whitespace
plus no-break space and the byte order mark). -/
def isJsSpace (c : Char) : Bool :=
  c = ' ' || c = '\t' || c = '\n' || c = '\r' || c = '\x0b' || c = '\x0c' ||
    c = '\u00A0' || c = '\uFEFF'

/-- Value of the longest digit prefix in the given base, or none when the
string starts with no digit at all (the parseInt NaN case). -/
def digitsPrefixVal (d : Char → Option Nat) (base : Nat) (s : JStr) : Option Nat :=
  let ds := s.takeWhile (fun c => (d c).isSome)
  if ds.isEmpty then none
  else some (ds.foldl (fun acc c => base * acc + (d c).getD 0) 0)

/-- JavaScript parseInt(s, 10): skip whitespace, optional sign, then the
longest prefix of decimal digits; none models NaN. -/
def jsParseInt10 (s : JStr) : Option Int :=
  let t := s.dropWhile isJsSpace
  match t with
  | '+' :: r => (digitsPrefixVal digitVal? 10 r).map Int.ofNat
  | '-' :: r => (digitsPrefixVal digitVal? 10 r).map (fun v => -(Int.ofNat v))
  | _ => (digitsPrefixVal digitVal? 10 t).map Int.ofNat

/-- JavaScript parseInt(s, 16): skip whitespace, optional sign, an optional
0x/0X prefix, then the longest prefix of hex digits; none models NaN. -/
def jsParseInt16 (s : JStr) : Option Int :=
  let t := s.dropWhile isJsSpace
  match t with
  | '+' :: '0' :: 'x' :: r => (digitsPrefixVal hexVal? 16 r).map Int.ofNat
  | '+' :: '0' :: 'X' :: r => (digitsPrefixVal hexVal? 16 r).map Int.ofNat
  | '+' :: r => (digitsPrefixVal hexVal? 16 r).map Int.ofNat
  | '-' :: '0' :: 'x' :: r => (digitsPrefixVal hexVal? 16 r).map (fun v => -(Int.ofNat v))
  | '-' :: '0' :: 'X' :: r => (digitsPrefixVal hexVal? 16 r).map (fun v => -(Int.ofNat v))
  | '-' :: r => (digitsPrefixVal hexVal? 16 r).map (fun v => -(Int.ofNat v))
  | '0' :: 'x' :: r => (digitsPrefixVal hexVal? 16 r).map Int.ofNat
  | '0' :: 'X' :: r => (digitsPrefixVal hexVal? 16 r).map Int.ofNat
  | _ => (digitsPrefixVal hexVal? 16 t).map Int.ofNat

/-- A parsed EMV TLV value: a plain string, or a composite template tag
carrying the raw value together with its recursively parsed subfields. -/
inductive EMVValue where
  | flat (v : JStr)
  | composite (raw : JStr) (sub : List (JStr × EMVValue))

mutual

/-- Decidable equality of TLV values (the nested inductive blocks automatic
derivation). -/
def decEqEMVValue : (a b : EMVValue) → Decidable (a = b)
  | .flat a, .flat b =>
    if h : a = b then isTrue (by rw [h]) else isFalse (by simp [h])
  | .flat _, .composite _ _ => isFalse (by simp)
  | .composite _ _, .flat _ => isFalse (by simp)
  | .composite r1 s1, .composite r2 s2 =>
    if h : r1 = r2 then
      match decEqEMVSub s1 s2 with
      | isTrue h2 => isTrue (by rw [h, h2])
      | isFalse h2 => isFalse (by simp [h2])
    else isFalse (by simp [h])

/-- Decidable equality of TLV subfield lists. -/
def decEqEMVSub : (x y : List (JStr × EMVValue)) → Decidable (x = y)
  | [], [] => isTrue rfl
  | [], _ :: _ => isFalse (by simp)
  | _ :: _, [] => isFalse (by simp)
  | (k1, v1) :: t1, (k2, v2) :: t2 =>
    if h : k1 = k2 then
      match decEqEMVValue v1 v2, decEqEMVSub t1 t2 with
      | isTrue h2, isTrue h3 => isTrue (by rw [h, h2, h3])
      | isFalse h2, _ => isFalse (by simp [h2])
      | _, isFalse h3 => isFalse (by simp [h3])
    else isFalse (by simp [h])

end

instance : DecidableEq EMVValue := decEqEMVValue

/-- A JavaScript object with string keys and TLV values, in insertion
order. -/
abbrev EMVObj := List (JStr × EMVValue)

/-- JavaScript object property assignment on an insertion-ordered record:
an existing key keeps its position and is overwritten, a new key is
appended at the end. -/
def objInsert (m : EMVObj) (k : JStr) (v : EMVValue) : EMVObj :=
  match m with
  | [] => [(k, v)]
  | (k0, v0) :: rest => if k0 = k then (k0, v) :: rest else (k0, v0) :: objInsert rest k v

/-- JavaScript object property read. -/
def objGet (m : EMVObj) (k : JStr) : Option EMVValue :=
  match m with
  | [] => none
  | (k0, v0) :: rest => if k0 = k then some v0 else objGet rest k

/-- The composite template tags of parseEMV: ['26','27','28','29','30','31','32']. -/
def compositeTags : List JStr :=
  [['2','6'], ['2','7'], ['2','8'], ['2','9'], ['3','0'], ['3','1'], ['3','2']]

/-- One pass of the parseEMV while loop, with explicit fuel standing in for
the loop.  Each iteration reads a 2-character tag, a 2-character base-10
length, and a length-character value, storing composite tags as
{ raw, sub: parse(value) }.  When the length parses to NaN, the value slice
s.slice(i, i + NaN) is empty and i += NaN ends the loop (the JS loop
condition NaN < length is false).  The JS loop diverges on pathological
inputs whose length field parses to a negative number (such as "AA-4");
`none` models fuel running out, which never happens on inputs where every
length field is a nonnegative number or NaN. -/
def parseEMVAux : Nat → JStr → Int → EMVObj → Option EMVObj
  | 0, _, _, _ => none
  | fuel + 1, s, i, out =>
    if i < (s.length : Int) then
      let tag := jsSlice s i (i + 2)
      match jsParseInt10 (jsSlice s (i + 2) (i + 4)) with
      | none =>
        let val := jsSlice s (i + 4) 0
        if compositeTags.contains tag then
          (parseEMVAux fuel val 0 []).map (fun sub => objInsert out tag (.composite val sub))
        else some (objInsert out tag (.flat val))
      | some len =>
        let val := jsSlice s (i + 4) (i + 4 + len)
        if compositeTags.contains tag then
          (parseEMVAux fuel val 0 []).bind
            (fun sub => parseEMVAux fuel s (i + 4 + len) (objInsert out tag (.composite val sub)))
        else parseEMVAux fuel s (i + 4 + len) (objInsert out tag (.flat val))
    else some out

/-- The body of one loop iteration as a standalone function of the tag and
the parsed length, used to state unfolding lemmas. -/
def parseEMVField (fuel : Nat) (s : JStr) (i : Int) (out : EMVObj) (tag : JStr) :
    Option Int → Option EMVObj
  | none =>
    let val := jsSlice s (i + 4) 0
    if compositeTags.contains tag then
      (parseEMVAux fuel val 0 []).map (fun sub => objInsert out tag (.composite val sub))
    else some (objInsert out tag (.flat val))
  | some len =>
    let val := jsSlice s (i + 4) (i + 4 + len)
    if compositeTags.contains tag then
      (parseEMVAux fuel val 0 []).bind
        (fun sub => parseEMVAux fuel s (i + 4 + len) (objInsert out tag (.composite val sub)))
    else parseEMVAux fuel s (i + 4 + len) (objInsert out tag (.flat val))

/-- Unfolding of one loop pass through parseEMVField. -/
theorem parseEMVAux_eq_field (fuel : Nat) (s : JStr) (i : Int) (out : EMVObj) :
    parseEMVAux (fuel + 1) s i out
      = if i < (s.length : Int) then
          parseEMVField fuel s i out (jsSlice s i (i + 2))
            (jsParseInt10 (jsSlice s (i + 2) (i + 4)))
        else some out := by
  cases hX : jsParseInt10 (jsSlice s (i + 2) (i + 4)) with
  | none => simp only [parseEMVAux, parseEMVField, hX]
  | some len => simp only [parseEMVAux, parseEMVField, hX]

/-- parseEMV from src/utils/emvco.js, over the char-list string model.  The
fuel length + 1 is enough for every terminating run of the loop in which
each parsed length field is a nonnegative number or NaN: each continuing
iteration then consumes at least four characters. -/
def parseEMV (s : JStr) : EMVObj := (parseEMVAux (s.length + 1) s 0 []).getD []

/-- Zero-padded two-digit decimal rendering of a length below 100. -/
def pad2 (n : Nat) : JStr :=
  [Char.ofNat ('0'.toNat + n / 10), Char.ofNat ('0'.toNat + n % 10)]

/-- Flat TLV encoding: tag ++ two-digit length ++ value, concatenated. -/
def encodeTLV (ps : List (JStr × JStr)) : JStr :=
  ps.foldr (fun p acc => p.1 ++ pad2 p.2.length ++ p.2 ++ acc) []

/-- The shift round of crc16ccitt: if the top bit of the 16-bit register is
set, shift left and XOR with 0x1021, else just shift left; in either case
the register is masked back to 16 bits (crc &= 0xFFFF). -/
def crcRound (c : Nat) : Nat :=
  if c &&& 0x8000 ≠ 0 then ((c <<< 1) ^^^ 0x1021) &&& 0xFFFF else (c <<< 1) &&& 0xFFFF

/-- The inner for loop of crc16ccitt: n shift rounds. -/
def crcRounds : Nat → Nat → Nat
  | 0, c => c
  | n + 1, c => crcRounds n (crcRound c)

/-- parseInt(hex.substr(i, 2), 16) as a byte value folded into the register.
In JavaScript NaN << 8 is 0, modelled by getD 0.  A negative parse result
would need a sign character, which cannot occur inside a hex payload, so
toNat is exact on every reachable chunk. -/
def crcByteOfChunk (chunk : JStr) : Nat := ((jsParseInt16 chunk).getD 0).toNat

/-- The outer loop of crc16ccitt: the string is consumed two characters at a
time (a trailing lone character forms a one-character chunk); each chunk is
parsed as a byte, XORed into the top 8 bits of the register, and followed by
8 shift rounds. -/
def crc16Loop (crc : Nat) : JStr → Nat
  | [] => crc
  | [c] => crcRounds 8 (crc ^^^ (crcByteOfChunk [c] <<< 8))
  | c1 :: c2 :: rest => crc16Loop (crcRounds 8 (crc ^^^ (crcByteOfChunk [c1, c2] <<< 8))) rest

/-- Lowercase hex digit characters, as produced by Number.prototype.toString(16). -/
def hexDigitChar (d : Nat) : Char :=
  if d < 10 then Char.ofNat ('0'.toNat + d) else Char.ofNat ('a'.toNat + d - 10)

/-- Digit production of Number.prototype.toString(16), with fuel standing in
for the division recursion (n / 16 is smaller than n, so fuel n + 1 always
suffices). -/
def natToHexAux : Nat → Nat → JStr
  | 0, _ => []
  | fuel + 1, n =>
    if n < 16 then [hexDigitChar n]
    else natToHexAux fuel (n / 16) ++ [hexDigitChar (n % 16)]

/-- Number.prototype.toString(16) for a natural number: most significant
digit first, no leading zeros, lowercase. -/
def natToHex (n : Nat) : JStr := natToHexAux (n + 1) n

/-- String.prototype.padStart(4, '0'). -/
def padStart4 (s : JStr) : JStr := List.replicate (4 - s.length) '0' ++ s

/-- crc16ccitt from src/utils/emvco.js: CRC register starts at 0xFFFF, the
hex string is folded in two characters per byte, and the result is rendered
as at-least-4 lowercase hex digits. -/
def crc16ccitt (hex : JStr) : JStr := padStart4 (natToHex (crc16Loop 0xFFFF hex))

/-- ASCII String.prototype.toUpperCase, characterwise. -/
def jsToUpper (c : Char) : Char :=
  if 'a' ≤ c ∧ c ≤ 'z' then Char.ofNat (c.toNat - 32) else c

/-- Does pat occur at the head of s? -/
def startsWith : JStr → JStr → Bool
  | _, [] => true
  | [], _ :: _ => false
  | c :: cs, p :: ps => c = p && startsWith cs ps

/-- String.prototype.indexOf: the index of the first occurrence of pat in s,
or none (JS -1) when there is none. -/
def jsIndexOf : JStr → JStr → Option Nat
  | s, pat =>
    if startsWith s pat then some 0
    else match s with
      | [] => none
      | _ :: rest => (jsIndexOf rest pat).map (· + 1)

/-- The result record of verifyCRC. -/
structure CRCResult where
  ok : Bool
  expected : Option JStr
  actual : Option JStr
deriving DecidableEq

/-- The CRC field header "6304" (tag 63, length 04). -/
def marker6304 : JStr := ['6', '3', '0', '4']

/-- verifyCRC from src/utils/emvco.js: locate the first "6304", checksum
everything up to and including it, compare with the 4 following characters,
both sides upper-cased. -/
def verifyCRC (payload : JStr) : CRCResult :=
  match jsIndexOf payload marker6304 with
  | none => ⟨false, none, none⟩
  | some idx =>
    let dataNoCRC := jsSlice payload 0 ((idx : Int) + 4)
    let act := (jsSlice payload ((idx : Int) + 4) ((idx : Int) + 8)).map jsToUpper
    let expd := (crc16ccitt dataNoCRC).map jsToUpper
    ⟨decide (expd = act), some expd, some act⟩

/-- A slice between two nonnegative indices is a take of a drop. -/
theorem jsSlice_cast (s : JStr) (i j : Nat) :
    jsSlice s (i : Int) (j : Int) = (s.drop i).take (j - i) := by
  simp only [jsSlice]
  have h1 : ¬ ((i : Int) < 0) := by omega
  have h2 : ¬ ((j : Int) < 0) := by omega
  rw [if_neg h1, if_neg h2]
  have hmin1 : min (i : Int) (s.length : Int) = ((min i s.length : Nat) : Int) := by
    push_cast; rfl
  have hmin2 : min (j : Int) (s.length : Int) = ((min j s.length : Nat) : Int) := by
    push_cast; rfl
  rw [hmin1, hmin2]
  by_cases hc : ((min i s.length : Nat) : Int) < ((min j s.length : Nat) : Int)
  · rw [if_pos hc]
    have hc2 : min i s.length < min j s.length := by exact_mod_cast hc
    have hi : i < s.length := by omega
    have hmi : min i s.length = i := by omega
    rw [Int.toNat_natCast, Int.toNat_natCast, hmi, List.drop_take]
    rw [List.take_eq_take]
    rw [List.length_drop]
    omega
  · rw [if_neg hc]
    have hc2 : ¬ (min i s.length < min j s.length) := by exact_mod_cast hc
    by_cases hi : s.length ≤ i
    · rw [List.drop_eq_nil_of_le hi, List.take_nil]
    · have hj : j ≤ i := by omega
      have : j - i = 0 := by omega
      rw [this, List.take_zero]

/-- A slice whose end index is 0 (here: the NaN end of s.slice(i, i + NaN))
is empty. -/
theorem jsSlice_end_zero (s : JStr) (a : Int) : jsSlice s a 0 = [] := by
  simp only [jsSlice]
  have h0 : ¬ ((0 : Int) < 0) := by omega
  rw [if_neg h0]
  have hn : (0 : Int) ≤ (s.length : Int) := by omega
  rw [min_eq_left hn]
  have hlo : (0 : Int) ≤ (if a < 0 then max ((s.length : Int) + a) 0 else min a (s.length : Int)) := by
    split
    · exact le_max_right _ _
    · next h => exact le_min (by omega) hn
  rw [if_neg (not_lt.mpr hlo)]

/-- The two-digit length field encodes its value for every length
below 100. -/
theorem jsParseInt10_pad2 (n : Nat) (h : n ≤ 99) :
    jsParseInt10 (pad2 n) = some (n : Int) := by
  have hall : ∀ m : Nat, m < 100 → jsParseInt10 (pad2 m) = some (m : Int) := by decide
  exact hall n (by omega)

/-- Loop exit: once the cursor has reached the end of the string the loop
returns the accumulated object. -/
theorem parseEMVAux_done (fuel : Nat) (s : JStr) (i : Nat) (out : EMVObj)
    (h : s.length ≤ i) :
    parseEMVAux (fuel + 1) s (i : Int) out = some out := by
  rw [parseEMVAux_eq_field, if_neg (by exact_mod_cast not_lt.mpr h)]

/-- After a 2-character tag, the rest of the stream starts two positions
later. -/
theorem drop_add_two (s t r : JStr) (i : Nat) (hdrop : s.drop i = t ++ r)
    (ht : t.length = 2) : s.drop (i + 2) = r := by
  have h1 : s.drop (i + 2) = (s.drop i).drop 2 := (List.drop_drop 2 i s).symm
  rw [h1, hdrop, show (2 : Nat) = t.length from ht.symm, List.drop_left]

/-- One iteration of the loop on a well-formed non-composite field. -/
theorem parseEMVAux_step_flat (fuel : Nat) (s : JStr) (i : Nat) (out : EMVObj)
    (t v rest : JStr)
    (hdrop : s.drop i = t ++ (pad2 v.length ++ (v ++ rest)))
    (ht : t.length = 2) (hv : v.length ≤ 99)
    (hcomp : t ∉ compositeTags) :
    parseEMVAux (fuel + 1) s (i : Int) out
      = parseEMVAux fuel s ((i + 4 + v.length : Nat) : Int) (objInsert out t (.flat v)) := by
  have hlen : s.length - i = 4 + v.length + rest.length := by
    have h := congrArg List.length hdrop
    simp only [List.length_drop, List.length_append, pad2, List.length_cons,
      List.length_nil] at h
    omega
  have hi : i < s.length := by omega
  have hdrop2 : s.drop (i + 2) = pad2 v.length ++ (v ++ rest) := drop_add_two s t _ i hdrop ht
  have hdrop4 : s.drop (i + 4) = v ++ rest :=
    drop_add_two s (pad2 v.length) _ (i + 2) hdrop2 (by simp [pad2])
  have e2 : (i : Int) + 2 = ((i + 2 : Nat) : Int) := by push_cast; ring
  have e4 : (i : Int) + 4 = ((i + 4 : Nat) : Int) := by push_cast; ring
  have htag : jsSlice s (i : Int) ((i : Int) + 2) = t := by
    rw [e2, jsSlice_cast, hdrop, show i + 2 - i = t.length by omega, List.take_left]
  have hlenS : jsSlice s ((i : Int) + 2) ((i : Int) + 4) = pad2 v.length := by
    rw [e2, e4, jsSlice_cast, hdrop2,
      show i + 4 - (i + 2) = (pad2 v.length).length by simp [pad2], List.take_left]
  have hval : jsSlice s ((i : Int) + 4) ((i : Int) + 4 + ((v.length : Nat) : Int)) = v := by
    rw [show (i : Int) + 4 + ((v.length : Nat) : Int) = ((i + 4 + v.length : Nat) : Int) by
        push_cast; ring,
      e4, jsSlice_cast, hdrop4,
      show i + 4 + v.length - (i + 4) = v.length by omega, List.take_left]
  have hcont : compositeTags.contains t = false := by
    rw [List.contains, Bool.eq_false_iff]
    intro hel
    exact hcomp (List.elem_iff.mp hel)
  rw [parseEMVAux_eq_field, if_pos (by exact_mod_cast hi), htag, hlenS,
    jsParseInt10_pad2 v.length hv]
  simp only [parseEMVField, hcont, Bool.false_eq_true, if_false, hval]
  norm_cast

/-- Dropping past a known leading block of the remaining stream. -/
theorem drop_add_of_drop_append (s a r : JStr) (i : Nat) (hdrop : s.drop i = a ++ r) :
    s.drop (i + a.length) = r := by
  have h1 : s.drop (i + a.length) = (s.drop i).drop a.length := (List.drop_drop _ i s).symm
  rw [h1, hdrop, List.drop_left]

/-- One iteration of the loop on a well-formed composite field whose nested
parse succeeds. -/
theorem parseEMVAux_step_comp (fuel : Nat) (s : JStr) (i : Nat) (out : EMVObj)
    (t v rest : JStr) (sub : EMVObj)
    (hdrop : s.drop i = t ++ (pad2 v.length ++ (v ++ rest)))
    (ht : t.length = 2) (hv : v.length ≤ 99)
    (hcomp : t ∈ compositeTags)
    (hsub : parseEMVAux fuel v 0 [] = some sub) :
    parseEMVAux (fuel + 1) s (i : Int) out
      = parseEMVAux fuel s ((i + 4 + v.length : Nat) : Int)
          (objInsert out t (.composite v sub)) := by
  have hlen : s.length - i = 4 + v.length + rest.length := by
    have h := congrArg List.length hdrop
    simp only [List.length_drop, List.length_append, pad2, List.length_cons,
      List.length_nil] at h
    omega
  have hi : i < s.length := by omega
  have hdrop2 : s.drop (i + 2) = pad2 v.length ++ (v ++ rest) := drop_add_two s t _ i hdrop ht
  have hdrop4 : s.drop (i + 4) = v ++ rest :=
    drop_add_two s (pad2 v.length) _ (i + 2) hdrop2 (by simp [pad2])
  have e2 : (i : Int) + 2 = ((i + 2 : Nat) : Int) := by push_cast; ring
  have e4 : (i : Int) + 4 = ((i + 4 : Nat) : Int) := by push_cast; ring
  have htag : jsSlice s (i : Int) ((i : Int) + 2) = t := by
    rw [e2, jsSlice_cast, hdrop, show i + 2 - i = t.length by omega, List.take_left]
  have hlenS : jsSlice s ((i : Int) + 2) ((i : Int) + 4) = pad2 v.length := by
    rw [e2, e4, jsSlice_cast, hdrop2,
      show i + 4 - (i + 2) = (pad2 v.length).length by simp [pad2], List.take_left]
  have hval : jsSlice s ((i : Int) + 4) ((i : Int) + 4 + ((v.length : Nat) : Int)) = v := by
    rw [show (i : Int) + 4 + ((v.length : Nat) : Int) = ((i + 4 + v.length : Nat) : Int) by
        push_cast; ring,
      e4, jsSlice_cast, hdrop4,
      show i + 4 + v.length - (i + 4) = v.length by omega, List.take_left]
  have hcont : compositeTags.contains t = true := List.elem_iff.mpr hcomp
  rw [parseEMVAux_eq_field, if_pos (by exact_mod_cast hi), htag, hlenS,
    jsParseInt10_pad2 v.length hv]
  simp only [parseEMVField, hcont, if_true, hval, hsub, Option.some_bind]
  norm_cast

/-- One iteration of the loop on a field whose length field parses to NaN:
the stored value is empty and the loop ends. -/
theorem parseEMVAux_step_nan (fuel : Nat) (s : JStr) (i : Nat) (out : EMVObj)
    (t r : JStr)
    (hdrop : s.drop i = t ++ r) (ht : t.length = 2)
    (hnan : jsParseInt10 (r.take 2) = none) :
    parseEMVAux (fuel + 2) s (i : Int) out
      = some (objInsert out t
          (if t ∈ compositeTags then .composite [] [] else .flat [])) := by
  have hi : i < s.length := by
    have h := congrArg List.length hdrop
    simp only [List.length_drop, List.length_append] at h
    omega
  have hdrop2 : s.drop (i + 2) = r := drop_add_two s t _ i hdrop ht
  have e2 : (i : Int) + 2 = ((i + 2 : Nat) : Int) := by push_cast; ring
  have e4 : (i : Int) + 4 = ((i + 4 : Nat) : Int) := by push_cast; ring
  have htag : jsSlice s (i : Int) ((i : Int) + 2) = t := by
    rw [e2, jsSlice_cast, hdrop, show i + 2 - i = t.length by omega, List.take_left]
  have hlenS : jsSlice s ((i : Int) + 2) ((i : Int) + 4) = r.take 2 := by
    rw [e2, e4, jsSlice_cast, hdrop2, show i + 4 - (i + 2) = 2 by omega]
  have hval : jsSlice s ((i : Int) + 4) 0 = [] := jsSlice_end_zero s _
  have hnil : parseEMVAux (fuel + 1) ([] : JStr) 0 [] = some [] := by
    have h0 : ((0 : Nat) : Int) = (0 : Int) := rfl
    rw [← h0, parseEMVAux_done fuel [] 0 []]
    simp
  show parseEMVAux (fuel + 1 + 1) s (i : Int) out = _
  rw [parseEMVAux_eq_field, if_pos (by exact_mod_cast hi), htag, hlenS, hnan]
  by_cases hm : t ∈ compositeTags
  · have hcont : compositeTags.contains t = true := List.elem_iff.mpr hm
    simp only [parseEMVField, hcont, if_true, hval, hnil]
    rw [if_pos hm]
    rfl
  · have hcont : compositeTags.contains t = false := by
      rw [List.contains, Bool.eq_false_iff]
      intro hel
      exact hm (List.elem_iff.mp hel)
    simp only [parseEMVField, hcont, Bool.false_eq_true, if_false, hval]
    rw [if_neg hm]

/-- Running the loop across an encoded run of flat fields consumes exactly
that run, inserting each pair in order. -/
theorem parseEMVAux_run_flat (ps : List (JStr × JStr)) (s tailStr : JStr)
    (i : Nat) (out : EMVObj) (fuel : Nat)
    (hps : ∀ p ∈ ps, p.1.length = 2 ∧ p.2.length ≤ 99 ∧ p.1 ∉ compositeTags)
    (hdrop : s.drop i = encodeTLV ps ++ tailStr) :
    parseEMVAux (ps.length + fuel) s (i : Int) out
      = parseEMVAux fuel s ((i + (encodeTLV ps).length : Nat) : Int)
          (ps.foldl (fun m p => objInsert m p.1 (.flat p.2)) out) := by
  induction ps generalizing i out with
  | nil => simp [encodeTLV]
  | cons p ps ih =>
    obtain ⟨t, v⟩ := p
    have hp := hps (t, v) (List.mem_cons_self _ _)
    have hps2 : ∀ q ∈ ps, q.1.length = 2 ∧ q.2.length ≤ 99 ∧ q.1 ∉ compositeTags :=
      fun q hq => hps q (List.mem_cons_of_mem _ hq)
    have hdrop1 : s.drop i
        = t ++ (pad2 v.length ++ (v ++ (encodeTLV ps ++ tailStr))) := by
      rw [hdrop]
      simp [encodeTLV, List.append_assoc]
    have hstep := parseEMVAux_step_flat (ps.length + fuel) s i out t v
      (encodeTLV ps ++ tailStr) hdrop1 hp.1 hp.2.1 hp.2.2
    have hlcons : ((t, v) :: ps).length + fuel = (ps.length + fuel) + 1 := by
      simp [List.length_cons]; omega
    rw [hlcons, hstep]
    have hdropN : s.drop (i + 4 + v.length) = encodeTLV ps ++ tailStr := by
      have d2 : s.drop (i + 2) = pad2 v.length ++ (v ++ (encodeTLV ps ++ tailStr)) :=
        drop_add_two s t _ i hdrop1 hp.1
      have d4 : s.drop (i + 4) = v ++ (encodeTLV ps ++ tailStr) :=
        drop_add_two s (pad2 v.length) _ (i + 2) d2 (by simp [pad2])
      have d5 := drop_add_of_drop_append s v _ (i + 4) d4
      exact d5
    rw [ih (i + 4 + v.length) (objInsert out t (.flat v)) hps2 hdropN]
    have hcur : i + 4 + v.length + (encodeTLV ps).length
        = i + (encodeTLV ((t, v) :: ps)).length := by
      have : (encodeTLV ((t, v) :: ps)).length
          = t.length + ((pad2 v.length).length + (v.length + (encodeTLV ps).length)) := by
        simp [encodeTLV, List.append_assoc]
      rw [this, hp.1]
      simp [pad2]
      omega
    rw [hcur]
    rfl

/-- The encoding of a run of 2-character-tag fields is at least four
characters per field. -/
theorem encodeTLV_length_ge (ps : List (JStr × JStr))
    (h : ∀ p ∈ ps, p.1.length = 2) :
    4 * ps.length ≤ (encodeTLV ps).length := by
  induction ps with
  | nil => simp [encodeTLV]
  | cons p ps ih =>
    have hp := h p (List.mem_cons_self _ _)
    have ih2 := ih (fun q hq => h q (List.mem_cons_of_mem _ hq))
    have : (encodeTLV (p :: ps)).length
        = p.1.length + ((pad2 p.2.length).length + (p.2.length + (encodeTLV ps).length)) := by
      simp [encodeTLV, List.append_assoc]
    rw [this, hp]
    simp [pad2, List.length_cons]
    omega

/-- Inserting a fresh key appends it at the end. -/
theorem objInsert_fresh (out : EMVObj) (k : JStr) (v : EMVValue)
    (h : ∀ r ∈ out, r.1 ≠ k) : objInsert out k v = out ++ [(k, v)] := by
  induction out with
  | nil => rfl
  | cons r rest ih =>
    have hk : r.1 ≠ k := h r (List.mem_cons_self _ _)
    simp only [objInsert, if_neg hk]
    rw [ih (fun q hq => h q (List.mem_cons_of_mem _ hq))]
    rfl

/-- Folding fresh, pairwise-distinct insertions appends them in order. -/
theorem foldl_objInsert_eq_append (qs : List (JStr × EMVValue)) (out : EMVObj)
    (hdisj : ∀ q ∈ qs, ∀ r ∈ out, r.1 ≠ q.1)
    (hnd : (qs.map Prod.fst).Nodup) :
    qs.foldl (fun m q => objInsert m q.1 q.2) out = out ++ qs := by
  induction qs generalizing out with
  | nil => simp
  | cons q qs ih =>
    simp only [List.foldl_cons]
    rw [objInsert_fresh out q.1 q.2 (fun r hr => hdisj q (List.mem_cons_self _ _) r hr)]
    have hnd2 : (qs.map Prod.fst).Nodup := by
      simp only [List.map_cons, List.nodup_cons] at hnd
      exact hnd.2
    have hq1 : q.1 ∉ qs.map Prod.fst := by
      simp only [List.map_cons, List.nodup_cons] at hnd
      exact hnd.1
    rw [ih (out ++ [(q.1, q.2)])
      (by
        intro q2 hq2 r hr
        rcases List.mem_append.mp hr with hro | hrq
        · exact hdisj q2 (List.mem_cons_of_mem _ hq2) r hro
        · have : r = (q.1, q.2) := by simpa using hrq
          rw [this]
          intro hEq
          exact hq1 (hEq ▸ List.mem_map_of_mem Prod.fst hq2))
      hnd2]
    simp

/-- Parsing an encoded run of flat fields yields exactly the folded
insertions. -/
theorem parseEMV_encodeTLV_flat (ps : List (JStr × JStr))
    (hps : ∀ p ∈ ps, p.1.length = 2 ∧ p.2.length ≤ 99 ∧ p.1 ∉ compositeTags) :
    parseEMV (encodeTLV ps)
      = ps.foldl (fun m p => objInsert m p.1 (.flat p.2)) [] := by
  have hge : 4 * ps.length ≤ (encodeTLV ps).length :=
    encodeTLV_length_ge ps (fun p hp => (hps p hp).1)
  have hsplit : (encodeTLV ps).length + 1
      = ps.length + ((encodeTLV ps).length - ps.length + 1) := by omega
  have hdrop : (encodeTLV ps).drop 0 = encodeTLV ps ++ [] := by simp
  have h0 : ((0 : Nat) : Int) = (0 : Int) := rfl
  unfold parseEMV
  rw [hsplit, ← h0,
    parseEMVAux_run_flat ps (encodeTLV ps) [] 0 [] _ hps hdrop,
    parseEMVAux_done _ _ _ _ (by omega)]
  rfl

/-- C4: parsing the concatenation of tag ++ padded length ++ value over
pairwise-distinct, non-composite 2-character tags recovers exactly those
pairs. -/
theorem tlv_flat_roundtrip (ps : List (JStr × JStr))
    (hps : ∀ p ∈ ps, p.1.length = 2 ∧ p.2.length ≤ 99 ∧ p.1 ∉ compositeTags)
    (hnd : (ps.map Prod.fst).Nodup) :
    parseEMV (encodeTLV ps) = ps.map (fun p => (p.1, EMVValue.flat p.2)) := by
  rw [parseEMV_encodeTLV_flat ps hps]
  have hmap : ps.foldl (fun m p => objInsert m p.1 (.flat p.2)) []
      = (ps.map (fun p => (p.1, EMVValue.flat p.2))).foldl
          (fun m q => objInsert m q.1 q.2) [] := by
    rw [List.foldl_map]
  rw [hmap, foldl_objInsert_eq_append _ [] (by simp)
    (by
      have : (ps.map (fun p => (p.1, EMVValue.flat p.2))).map Prod.fst
          = ps.map Prod.fst := by
        rw [List.map_map]
        rfl
      rw [this]
      exact hnd)]
  simp

/-- A one-level-deep TLV description: a plain value, or a nested stream of
flat fields (the shape of a merchant-account template). -/
inductive TLVSpec where
  | leaf (v : JStr)
  | nested (qs : List (JStr × JStr))

/-- The character rendering of a TLV description. -/
def renderSpec : TLVSpec → JStr
  | .leaf v => v
  | .nested qs => encodeTLV qs

/-- Encoding of a run of fields whose values may be nested streams. -/
def encodeTLV2 (ps : List (JStr × TLVSpec)) : JStr :=
  encodeTLV (ps.map (fun p => (p.1, renderSpec p.2)))

/-- Well-formedness of one field of a two-level payload: leaves sit under
non-composite tags, nested streams under composite tags, and the nested
fields are themselves flat and well formed. -/
def specOK2 (p : JStr × TLVSpec) : Prop :=
  match p.2 with
  | .leaf _ => p.1 ∉ compositeTags
  | .nested qs => p.1 ∈ compositeTags
      ∧ ∀ q ∈ qs, q.1.length = 2 ∧ q.2.length ≤ 99 ∧ q.1 ∉ compositeTags

instance (p : JStr × TLVSpec) : Decidable (specOK2 p) := by
  unfold specOK2
  cases p.2 <;> infer_instance

/-- What parseEMV stores for one field of a two-level payload: a composite
tag gets { raw: value, sub: parse(value) }. -/
def nodeOfSpec (p : JStr × TLVSpec) : EMVValue :=
  match p.2 with
  | .leaf v => .flat v
  | .nested qs => .composite (encodeTLV qs) (parseEMV (encodeTLV qs))

/-- Fuel consumed by one field of a two-level payload. -/
def specFuel (p : JStr × TLVSpec) : Nat :=
  match p.2 with
  | .leaf _ => 1
  | .nested qs => qs.length + 2

/-- Running the loop to completion over a two-level payload inserts, for
each field, its flat value or its recursively parsed composite node. -/
theorem parseEMVAux_run_two (ps : List (JStr × TLVSpec)) (s : JStr)
    (i : Nat) (out : EMVObj) (fuel : Nat)
    (hps : ∀ p ∈ ps, p.1.length = 2 ∧ (renderSpec p.2).length ≤ 99 ∧ specOK2 p)
    (hdrop : s.drop i = encodeTLV2 ps) :
    parseEMVAux ((ps.map specFuel).sum + (fuel + 1)) s (i : Int) out
      = some (ps.foldl (fun m p => objInsert m p.1 (nodeOfSpec p)) out) := by
  induction ps generalizing i out fuel with
  | nil =>
    have hend : s.length ≤ i := by
      have h := congrArg List.length hdrop
      simp [encodeTLV2, encodeTLV] at h
      omega
    simpa using parseEMVAux_done fuel s i out hend
  | cons p ps ih =>
    obtain ⟨t, pv⟩ := p
    have hp := hps (t, pv) (List.mem_cons_self _ _)
    have hps2 : ∀ q ∈ ps, q.1.length = 2 ∧ (renderSpec q.2).length ≤ 99 ∧ specOK2 q :=
      fun q hq => hps q (List.mem_cons_of_mem _ hq)
    have hdrop1 : s.drop i
        = t ++ (pad2 (renderSpec pv).length ++ (renderSpec pv ++ encodeTLV2 ps)) := by
      rw [hdrop]
      simp [encodeTLV2, encodeTLV, List.append_assoc]
    have hdropN : s.drop (i + 4 + (renderSpec pv).length) = encodeTLV2 ps := by
      have d2 := drop_add_two s t _ i hdrop1 hp.1
      have d4 := drop_add_two s (pad2 (renderSpec pv).length) _ (i + 2) d2 (by simp [pad2])
      exact drop_add_of_drop_append s (renderSpec pv) _ (i + 4) d4
    cases hpv : pv with
    | leaf v =>
      have hleaf : renderSpec (TLVSpec.leaf v) = v := rfl
      have hnc : t ∉ compositeTags := by
        have := hp.2.2
        rw [hpv] at this
        exact this
      have hfuel : (((t, TLVSpec.leaf v) :: ps).map specFuel).sum + (fuel + 1)
          = ((ps.map specFuel).sum + (fuel + 1)) + 1 := by
        simp [specFuel]
        omega
      rw [hfuel]
      rw [hpv] at hdrop1 hdropN
      rw [hleaf] at hdrop1 hdropN
      rw [parseEMVAux_step_flat _ s i out t v _ hdrop1 hp.1
        (by
          have := hp.2.1
          rw [hpv] at this
          exact this) hnc]
      rw [ih (i + 4 + v.length) _ fuel hps2 hdropN]
      simp [hpv, nodeOfSpec]
    | nested qs =>
      have hren : renderSpec (TLVSpec.nested qs) = encodeTLV qs := rfl
      have hok : t ∈ compositeTags ∧
          ∀ q ∈ qs, q.1.length = 2 ∧ q.2.length ≤ 99 ∧ q.1 ∉ compositeTags := by
        have := hp.2.2
        rw [hpv] at this
        exact this
      have hqlen : 4 * qs.length ≤ (encodeTLV qs).length :=
        encodeTLV_length_ge qs (fun q hq => (hok.2 q hq).1)
      have hsub : parseEMVAux (qs.length + ((ps.map specFuel).sum + fuel + 2))
          (encodeTLV qs) ((0 : Nat) : Int) []
          = some (qs.foldl (fun m q => objInsert m q.1 (.flat q.2)) []) := by
        rw [parseEMVAux_run_flat qs (encodeTLV qs) [] 0 [] _ hok.2 (by simp)]
        have := parseEMVAux_done ((ps.map specFuel).sum + fuel + 1) (encodeTLV qs)
          (0 + (encodeTLV qs).length)
          (qs.foldl (fun m q => objInsert m q.1 (.flat q.2)) []) (by omega)
        rw [show (ps.map specFuel).sum + fuel + 2 = ((ps.map specFuel).sum + fuel + 1) + 1
          by omega]
        exact this
      have hfuel : (((t, TLVSpec.nested qs) :: ps).map specFuel).sum + (fuel + 1)
          = (qs.length + 1 + ((ps.map specFuel).sum + fuel + 1)) + 1 := by
        simp [specFuel]
        omega
      rw [hfuel]
      rw [hpv] at hdrop1 hdropN
      rw [hren] at hdrop1 hdropN
      rw [parseEMVAux_step_comp _ s i out t (encodeTLV qs) _
        (qs.foldl (fun m q => objInsert m q.1 (.flat q.2)) []) hdrop1 hp.1
        (by
          have := hp.2.1
          rw [hpv] at this
          exact this) hok.1
        (by
          rw [show qs.length + 1 + ((ps.map specFuel).sum + fuel + 1)
            = qs.length + ((ps.map specFuel).sum + fuel + 2) by omega]
          exact hsub)]
      rw [show qs.length + 1 + ((ps.map specFuel).sum + fuel + 1)
        = (ps.map specFuel).sum + ((qs.length + fuel + 1) + 1) by omega]
      rw [ih (i + 4 + (encodeTLV qs).length) _ (qs.length + fuel + 1) hps2 hdropN]
      have hnode : nodeOfSpec (t, TLVSpec.nested qs)
          = .composite (encodeTLV qs) (qs.foldl (fun m q => objInsert m q.1 (.flat q.2)) []) := by
        simp only [nodeOfSpec]
        rw [parseEMV_encodeTLV_flat qs hok.2]
      simp [hnode]

/-- Per-field fuel is dominated by the encoded length. -/
theorem specFuel_le_length (ps : List (JStr × TLVSpec))
    (h : ∀ p ∈ ps, p.1.length = 2 ∧ (renderSpec p.2).length ≤ 99 ∧ specOK2 p) :
    (ps.map specFuel).sum ≤ (encodeTLV2 ps).length := by
  induction ps with
  | nil => simp [encodeTLV2, encodeTLV]
  | cons p ps ih =>
    have hp := h p (List.mem_cons_self _ _)
    have ih2 := ih (fun q hq => h q (List.mem_cons_of_mem _ hq))
    have hlen : (encodeTLV2 (p :: ps)).length
        = p.1.length + ((pad2 (renderSpec p.2).length).length
            + ((renderSpec p.2).length + (encodeTLV2 ps).length)) := by
      simp [encodeTLV2, encodeTLV, List.append_assoc]
    have hfuel : specFuel p ≤ 2 + (renderSpec p.2).length := by
      cases hv : p.2 with
      | leaf v =>
        simp only [specFuel, hv, renderSpec]
        omega
      | nested qs =>
        have hok := hp.2.2
        simp only [specOK2, hv] at hok
        have h4 : 4 * qs.length ≤ (encodeTLV qs).length :=
          encodeTLV_length_ge qs (fun q hq => (hok.2 q hq).1)
        simp only [specFuel, hv, renderSpec]
        omega
    have hsum : ((p :: ps).map specFuel).sum = specFuel p + (ps.map specFuel).sum := by
      simp
    rw [hsum, hlen, hp.1]
    have : (pad2 (renderSpec p.2).length).length = 2 := by simp [pad2]
    omega

/-- C5: for two-level payloads, every composite-tagged field is stored as
{ raw: value, sub: parse(value) } with the value recursively parsed, and
every flat field as its plain value. -/
theorem tlv_composite_recursion (ps : List (JStr × TLVSpec))
    (hps : ∀ p ∈ ps, p.1.length = 2 ∧ (renderSpec p.2).length ≤ 99 ∧ specOK2 p)
    (hnd : (ps.map Prod.fst).Nodup) :
    parseEMV (encodeTLV2 ps) = ps.map (fun p => (p.1, nodeOfSpec p)) := by
  have hle : (ps.map specFuel).sum ≤ (encodeTLV2 ps).length := specFuel_le_length ps hps
  have hsplit : (encodeTLV2 ps).length + 1
      = (ps.map specFuel).sum + (((encodeTLV2 ps).length - (ps.map specFuel).sum) + 1) := by
    omega
  have h0 : ((0 : Nat) : Int) = (0 : Int) := rfl
  unfold parseEMV
  rw [hsplit, ← h0, parseEMVAux_run_two ps (encodeTLV2 ps) 0 [] _ hps (by simp)]
  have hmap : ps.foldl (fun m p => objInsert m p.1 (nodeOfSpec p)) []
      = (ps.map (fun p => (p.1, nodeOfSpec p))).foldl
          (fun m q => objInsert m q.1 q.2) [] := by
    rw [List.foldl_map]
  rw [Option.getD_some, hmap, foldl_objInsert_eq_append _ []
    (fun q _ r hr => absurd hr (List.not_mem_nil r))
    (by
      have : (ps.map (fun p => (p.1, nodeOfSpec p))).map Prod.fst = ps.map Prod.fst := by
        rw [List.map_map]
        rfl
      rw [this]
      exact hnd)]
  simp

/-- Final iteration on a field whose declared length overruns the end of
the string: the value is the shorter remaining slice and the loop ends. -/
theorem parseEMVAux_step_trunc (fuel : Nat) (s : JStr) (i : Nat) (out : EMVObj)
    (t v : JStr) (d : Nat)
    (hdrop : s.drop i = t ++ (pad2 d ++ v))
    (ht : t.length = 2) (hd : d ≤ 99) (hv : v.length < d)
    (hcomp : t ∉ compositeTags) :
    parseEMVAux (fuel + 2) s (i : Int) out = some (objInsert out t (.flat v)) := by
  have hlen : s.length - i = 4 + v.length := by
    have h := congrArg List.length hdrop
    simp only [List.length_drop, List.length_append, pad2, List.length_cons,
      List.length_nil] at h
    omega
  have hi : i < s.length := by omega
  have hitotal : s.length = i + 4 + v.length := by
    have h := congrArg List.length hdrop
    simp only [List.length_drop, List.length_append, pad2, List.length_cons,
      List.length_nil] at h
    omega
  have hdrop2 : s.drop (i + 2) = pad2 d ++ v := drop_add_two s t _ i hdrop ht
  have hdrop4 : s.drop (i + 4) = v :=
    drop_add_two s (pad2 d) _ (i + 2) hdrop2 (by simp [pad2])
  have e2 : (i : Int) + 2 = ((i + 2 : Nat) : Int) := by push_cast; ring
  have e4 : (i : Int) + 4 = ((i + 4 : Nat) : Int) := by push_cast; ring
  have htag : jsSlice s (i : Int) ((i : Int) + 2) = t := by
    rw [e2, jsSlice_cast, hdrop, show i + 2 - i = t.length by omega, List.take_left]
  have hlenS : jsSlice s ((i : Int) + 2) ((i : Int) + 4) = pad2 d := by
    rw [e2, e4, jsSlice_cast, hdrop2,
      show i + 4 - (i + 2) = (pad2 d).length by simp [pad2], List.take_left]
  have hval : jsSlice s ((i : Int) + 4) ((i : Int) + 4 + ((d : Nat) : Int)) = v := by
    rw [show (i : Int) + 4 + ((d : Nat) : Int) = ((i + 4 + d : Nat) : Int) by push_cast; ring,
      e4, jsSlice_cast, hdrop4]
    exact List.take_of_length_le (by omega)
  have hcont : compositeTags.contains t = false := by
    rw [List.contains, Bool.eq_false_iff]
    intro hel
    exact hcomp (List.elem_iff.mp hel)
  show parseEMVAux (fuel + 1 + 1) s (i : Int) out = _
  rw [parseEMVAux_eq_field, if_pos (by exact_mod_cast hi), htag, hlenS,
    jsParseInt10_pad2 d hd]
  simp only [parseEMVField, hcont, Bool.false_eq_true, if_false, hval]
  rw [show (i : Int) + 4 + ((d : Nat) : Int) = ((i + 4 + d : Nat) : Int) by push_cast; ring,
    parseEMVAux_done fuel s (i + 4 + d) _ (by omega)]

/-- C6: when a field declares a length larger than what remains, parseEMV
stores the shorter remaining slice for that tag and returns normally. -/
theorem tlv_truncated_value (ps : List (JStr × JStr)) (t v : JStr) (d : Nat)
    (hps : ∀ p ∈ ps, p.1.length = 2 ∧ p.2.length ≤ 99 ∧ p.1 ∉ compositeTags)
    (ht : t.length = 2) (hcomp : t ∉ compositeTags) (hd : d ≤ 99) (hv : v.length < d)
    (hnd : (ps.map Prod.fst ++ [t]).Nodup) :
    parseEMV (encodeTLV ps ++ (t ++ (pad2 d ++ v)))
      = ps.map (fun p => (p.1, EMVValue.flat p.2)) ++ [(t, EMVValue.flat v)] := by
  set s := encodeTLV ps ++ (t ++ (pad2 d ++ v)) with hs
  have hge : 4 * ps.length ≤ (encodeTLV ps).length :=
    encodeTLV_length_ge ps (fun p hp => (hps p hp).1)
  have hlen : s.length = (encodeTLV ps).length + (4 + v.length) := by
    simp [hs, pad2, ht]
    omega
  have hsplit : s.length + 1 = ps.length + ((s.length - 1 - ps.length) + 2) := by omega
  have h0 : ((0 : Nat) : Int) = (0 : Int) := rfl
  unfold parseEMV
  rw [hsplit, ← h0, parseEMVAux_run_flat ps s (t ++ (pad2 d ++ v)) 0 [] _ hps (by simp [hs])]
  have hdropN : s.drop (0 + (encodeTLV ps).length) = t ++ (pad2 d ++ v) := by
    have : s.drop 0 = encodeTLV ps ++ (t ++ (pad2 d ++ v)) := by simp [hs]
    simpa using drop_add_of_drop_append s (encodeTLV ps) _ 0 this
  rw [parseEMVAux_step_trunc _ s _ _ t v d hdropN ht hd hv hcomp, Option.getD_some]
  have hndps : (ps.map Prod.fst).Nodup ∧ t ∉ ps.map Prod.fst := by
    constructor
    · exact (List.nodup_append.mp hnd).1
    · intro hmem
      exact (List.nodup_append.mp hnd).2.2 hmem (by simp)
  have hmap0 : ps.foldl (fun m p => objInsert m p.1 (.flat p.2)) []
      = (ps.map (fun p => (p.1, EMVValue.flat p.2))).foldl
          (fun m q => objInsert m q.1 q.2) [] := by
    rw [List.foldl_map]
  have hmap : ps.foldl (fun m p => objInsert m p.1 (.flat p.2)) []
      = ps.map (fun p => (p.1, EMVValue.flat p.2)) := by
    rw [hmap0, foldl_objInsert_eq_append _ []
      (fun q _ r hr => absurd hr (List.not_mem_nil r))
      (by
        have : (ps.map (fun p => (p.1, EMVValue.flat p.2))).map Prod.fst
            = ps.map Prod.fst := by
          rw [List.map_map]
          rfl
        rw [this]
        exact hndps.1)]
    simp
  rw [hmap, objInsert_fresh _ t _ (by
    intro r hr hEq
    apply hndps.2
    have : r.1 ∈ (ps.map (fun p => (p.1, EMVValue.flat p.2))).map Prod.fst :=
      List.mem_map_of_mem Prod.fst hr
    rw [List.map_map] at this
    rw [← hEq]
    simpa using this)]

/-- C10 (amended): when a field's 2-character length field parses to NaN,
parseEMV maps that tag to the empty value (wrapped for a composite tag),
discards everything after the length field, keeps the earlier pairs, and
returns normally. -/
theorem tlv_nan_length (ps : List (JStr × JStr)) (t r : JStr)
    (hps : ∀ p ∈ ps, p.1.length = 2 ∧ p.2.length ≤ 99 ∧ p.1 ∉ compositeTags)
    (ht : t.length = 2)
    (hnan : jsParseInt10 (r.take 2) = none)
    (hnd : (ps.map Prod.fst ++ [t]).Nodup) :
    parseEMV (encodeTLV ps ++ (t ++ r))
      = ps.map (fun p => (p.1, EMVValue.flat p.2))
          ++ [(t, if t ∈ compositeTags then EMVValue.composite [] []
                  else EMVValue.flat [])] := by
  set s := encodeTLV ps ++ (t ++ r) with hs
  have hge : 4 * ps.length ≤ (encodeTLV ps).length :=
    encodeTLV_length_ge ps (fun p hp => (hps p hp).1)
  have hlen : s.length = (encodeTLV ps).length + (2 + r.length) := by
    simp [hs, ht]
  have hsplit : s.length + 1 = ps.length + ((s.length - 1 - ps.length) + 2) := by omega
  have h0 : ((0 : Nat) : Int) = (0 : Int) := rfl
  unfold parseEMV
  rw [hsplit, ← h0, parseEMVAux_run_flat ps s (t ++ r) 0 [] _ hps (by simp [hs])]
  have hdropN : s.drop (0 + (encodeTLV ps).length) = t ++ r := by
    have : s.drop 0 = encodeTLV ps ++ (t ++ r) := by simp [hs]
    simpa using drop_add_of_drop_append s (encodeTLV ps) _ 0 this
  rw [parseEMVAux_step_nan _ s _ _ t r hdropN ht hnan, Option.getD_some]
  have hndps : (ps.map Prod.fst).Nodup ∧ t ∉ ps.map Prod.fst := by
    constructor
    · exact (List.nodup_append.mp hnd).1
    · intro hmem
      exact (List.nodup_append.mp hnd).2.2 hmem (by simp)
  have hmap0 : ps.foldl (fun m p => objInsert m p.1 (.flat p.2)) []
      = (ps.map (fun p => (p.1, EMVValue.flat p.2))).foldl
          (fun m q => objInsert m q.1 q.2) [] := by
    rw [List.foldl_map]
  have hmap : ps.foldl (fun m p => objInsert m p.1 (.flat p.2)) []
      = ps.map (fun p => (p.1, EMVValue.flat p.2)) := by
    rw [hmap0, foldl_objInsert_eq_append _ []
      (fun q _ r2 hr => absurd hr (List.not_mem_nil r2))
      (by
        have : (ps.map (fun p => (p.1, EMVValue.flat p.2))).map Prod.fst
            = ps.map Prod.fst := by
          rw [List.map_map]
          rfl
        rw [this]
        exact hndps.1)]
    simp
  rw [hmap, objInsert_fresh _ t _ (by
    intro r2 hr hEq
    apply hndps.2
    have : r2.1 ∈ (ps.map (fun p => (p.1, EMVValue.flat p.2))).map Prod.fst :=
      List.mem_map_of_mem Prod.fst hr
    rw [List.map_map] at this
    rw [← hEq]
    simpa using this)]

/-- C4 witness: a concrete flat payload round-trips. -/
theorem tlv_flat_roundtrip_witness :
    parseEMV (encodeTLV [(['0', '0'], ['A']), (['5', '4'], ['1', '2', '3'])])
      = [((['0', '0'] : JStr), EMVValue.flat ['A']),
         (['5', '4'], EMVValue.flat ['1', '2', '3'])] :=
  tlv_flat_roundtrip [(['0', '0'], ['A']), (['5', '4'], ['1', '2', '3'])]
    (by decide) (by decide)

/-- C5 witness: a payload with tag 29 nesting sub-tag 01 recovers the
account id under parsed-29.sub-01. -/
theorem tlv_composite_recursion_witness :
    parseEMV (encodeTLV2 [(['2', '9'], TLVSpec.nested [(['0', '1'], ['1', '2', '3'])])])
      = [(['2', '9'],
          nodeOfSpec (['2', '9'], TLVSpec.nested [(['0', '1'], ['1', '2', '3'])]))] :=
  tlv_composite_recursion [(['2', '9'], TLVSpec.nested [(['0', '1'], ['1', '2', '3'])])]
    (by decide) (by decide)

/-- C6 witness: a concrete payload whose last field declares length 5 with
only one character remaining stores that one character. -/
theorem tlv_truncated_value_witness :
    parseEMV (encodeTLV [(['0', '0'], ['0', '1'])] ++ (['5', '4'] ++ (pad2 5 ++ ['9'])))
      = [((['0', '0'] : JStr), EMVValue.flat ['0', '1']), (['5', '4'], EMVValue.flat ['9'])] :=
  tlv_truncated_value [(['0', '0'], ['0', '1'])] ['5', '4'] ['9'] 5
    (by decide) (by decide) (by decide) (by decide) (by decide) (by decide)

/-- C10 witness: a lone composite tag with nothing after it parses to
raw empty, sub empty. -/
theorem tlv_nan_length_witness :
    parseEMV (encodeTLV [] ++ (['2', '6'] ++ []))
      = [((['2', '6'] : JStr),
          if (['2', '6'] : JStr) ∈ compositeTags then EMVValue.composite [] []
          else EMVValue.flat [])] :=
  tlv_nan_length [] ['2', '6'] [] (by decide) (by decide) (by decide) (by decide)

/-- C10 counterexample: the length field "+5" does not begin with a decimal
digit, yet its base-10 parse is 5, not NaN; the parser stores the 5-character
value "12345" instead of the empty string the claim predicts. -/
theorem tlv_nan_counterexample :
    digitVal? '+' = none
    ∧ jsParseInt10 ['+', '5'] = some 5
    ∧ parseEMV (['A', 'A'] ++ (['+', '5'] ++ ['1', '2', '3', '4', '5']))
        = [(['A', 'A'], EMVValue.flat ['1', '2', '3', '4', '5'])]
    ∧ parseEMV (['A', 'A'] ++ (['+', '5'] ++ ['1', '2', '3', '4', '5']))
        ≠ [(['A', 'A'], EMVValue.flat [])] := by
  refine ⟨by decide, by decide, ?_, ?_⟩ <;> decide

/-- Uppercase hex digit characters, for the spec-side rendering. -/
def upHexDigitChar (d : Nat) : Char :=
  if d < 10 then Char.ofNat (48 + d) else Char.ofNat (55 + d)

/-- Spec 4.2 rendering: exactly 4 uppercase hex digits of a 16-bit value. -/
def specHex4 (n : Nat) : JStr :=
  [upHexDigitChar (n / 4096 % 16), upHexDigitChar (n / 256 % 16),
   upHexDigitChar (n / 16 % 16), upHexDigitChar (n % 16)]

/-- Spec 4.2 shift round: if the top bit of the 16-bit register is set,
shift left and XOR with 0x1021, else shift left; mask to 16 bits. -/
def specRound (c : Nat) : Nat :=
  if c.testBit 15 then ((2 * c) ^^^ 0x1021) % 65536 else (2 * c) % 65536

/-- Spec 4.2 checksum: CRC-16/CCITT-FALSE over a byte sequence, initial
register 0xFFFF, each byte XORed into the top 8 bits then 8 shift rounds. -/
def specCRC16 (bytes : List Nat) : Nat :=
  bytes.foldl (fun crc b => specRound^[8] (crc ^^^ (256 * b))) 0xFFFF

/-- Spec 4.2 byte extraction: every 2 hex characters form one byte (a
trailing lone character parses alone, as parseInt of a single digit). -/
def specHexBytes : JStr → List Nat
  | [] => []
  | [c] => [(hexVal? c).getD 0]
  | c1 :: c2 :: rest =>
    (16 * (hexVal? c1).getD 0 + (hexVal? c2).getD 0) :: specHexBytes rest

/-- The checksum the spec prescribes for a payload whose CRC marker starts
at idx. -/
def specExpectedCRC (payload : JStr) (idx : Nat) : JStr :=
  specHex4 (specCRC16 (specHexBytes (payload.take (idx + 4))))

/-- The embedded checksum field: the 4 characters after the marker,
upper-cased. -/
def specActualCRC (payload : JStr) (idx : Nat) : JStr :=
  ((payload.drop (idx + 4)).take 4).map jsToUpper

/-- The code's shift round computes the spec's shift round. -/
theorem crcRound_eq_spec (c : Nat) : crcRound c = specRound c := by
  unfold crcRound specRound
  have hand : c &&& 0x8000 = (c.testBit 15).toNat * 2 ^ 15 := by
    have h := Nat.and_two_pow c 15
    norm_num at h ⊢
    exact h
  have hmask : ∀ x : Nat, x &&& 0xFFFF = x % 65536 := by
    intro x
    have h := Nat.and_pow_two_sub_one_eq_mod x 16
    norm_num at h
    exact h
  have hshift : c <<< 1 = 2 * c := by
    rw [Nat.shiftLeft_eq]
    omega
  by_cases hb : c.testBit 15
  · rw [if_pos (by rw [hand, hb]; norm_num), if_pos hb, hmask, hshift]
  · have hb2 : c.testBit 15 = false := by
      cases hcb : c.testBit 15
      · rfl
      · exact absurd hcb hb
    rw [if_neg (by rw [hand, hb2]; norm_num), if_neg hb, hmask, hshift]

/-- The code's 8 rounds compute the spec's 8 iterations. -/
theorem crcRounds_eq_spec (n c : Nat) : crcRounds n c = specRound^[n] c := by
  induction n generalizing c with
  | zero => rfl
  | succ n ih =>
    rw [show crcRounds (n + 1) c = crcRounds n (crcRound c) from rfl, ih,
      crcRound_eq_spec, Function.iterate_succ_apply]

/-- Each round keeps the register within 16 bits. -/
theorem crcRound_lt (c : Nat) : crcRound c < 65536 := by
  unfold crcRound
  split
  · have := Nat.and_le_right (n := (c <<< 1) ^^^ 0x1021) (m := 0xFFFF)
    omega
  · have := Nat.and_le_right (n := c <<< 1) (m := 0xFFFF)
    omega

/-- After at least one round the register is within 16 bits. -/
theorem crcRounds_lt (n c : Nat) (h : 0 < n) : crcRounds n c < 65536 := by
  induction n generalizing c with
  | zero => omega
  | succ n ih =>
    rw [show crcRounds (n + 1) c = crcRounds n (crcRound c) from rfl]
    cases Nat.eq_zero_or_pos n with
    | inl h0 => rw [h0]; exact crcRound_lt c
    | inr hpos => exact ih (crcRound c) hpos

/-- The register stays within 16 bits across the whole loop. -/
theorem crc16Loop_lt (crc : Nat) (l : JStr) : crc < 65536 → crc16Loop crc l < 65536 := by
  induction crc, l using crc16Loop.induct with
  | case1 crc =>
    intro h
    simpa [crc16Loop] using h
  | case2 crc c =>
    intro h
    simp only [crc16Loop]
    exact crcRounds_lt 8 _ (by omega)
  | case3 crc c1 c2 rest ih =>
    intro h
    simp only [crc16Loop]
    exact ih (crcRounds_lt 8 _ (by omega))

/-- A hex digit character is never JavaScript whitespace. -/
theorem hex_not_space (c : Char) (h : (hexVal? c).isSome) : isJsSpace c = false := by
  cases hs : isJsSpace c
  · rfl
  · exfalso
    unfold isJsSpace at hs
    simp only [Bool.or_eq_true, decide_eq_true_eq] at hs
    rcases hs with ((((((hc | hc) | hc) | hc) | hc) | hc) | hc) | hc <;>
      rw [hc] at h <;> exact absurd h (by decide)

/-- A hex digit is bounded by 16. -/
theorem hexVal_lt (c : Char) : (hexVal? c).getD 0 < 16 := by
  unfold hexVal?
  have e0 : '0'.toNat = 48 := rfl
  have e9 : '9'.toNat = 57 := rfl
  have ea : 'a'.toNat = 97 := rfl
  have ef : 'f'.toNat = 102 := rfl
  have eA : 'A'.toNat = 65 := rfl
  have eF : 'F'.toNat = 70 := rfl
  split
  · next h =>
    have h1 : '0'.toNat ≤ c.toNat := h.1
    have h2 : c.toNat ≤ '9'.toNat := h.2
    simp only [Option.getD_some]
    omega
  · split
    · next h =>
      have h1 : 'a'.toNat ≤ c.toNat := h.1
      have h2 : c.toNat ≤ 'f'.toNat := h.2
      simp only [Option.getD_some]
      omega
    · split
      · next h =>
        have h1 : 'A'.toNat ≤ c.toNat := h.1
        have h2 : c.toNat ≤ 'F'.toNat := h.2
        simp only [Option.getD_some]
        omega
      · simp

/-- parseInt with radix 16 on a two-hex-character chunk. -/
theorem jsParseInt16_two_hex (c1 c2 : Char)
    (h1 : (hexVal? c1).isSome) (h2 : (hexVal? c2).isSome) :
    jsParseInt16 [c1, c2]
      = some (((16 * (hexVal? c1).getD 0 + (hexVal? c2).getD 0 : Nat) : Int)) := by
  have hs1 : isJsSpace c1 = false := hex_not_space c1 h1
  have hdw : [c1, c2].dropWhile isJsSpace = [c1, c2] := by
    simp [List.dropWhile_cons, hs1]
  simp only [jsParseInt16, hdw]
  split
  all_goals try (exfalso; simp_all [hexVal?]; done)
  simp [digitsPrefixVal, List.takeWhile, h1, h2]

/-- parseInt with radix 16 on a lone hex character. -/
theorem jsParseInt16_one_hex (c : Char) (h : (hexVal? c).isSome) :
    jsParseInt16 [c] = some (((hexVal? c).getD 0 : Nat) : Int) := by
  have hs : isJsSpace c = false := hex_not_space c h
  have hdw : [c].dropWhile isJsSpace = [c] := by
    simp [List.dropWhile_cons, hs]
  simp only [jsParseInt16, hdw]
  split
  all_goals try (exfalso; simp_all [hexVal?]; done)
  simp [digitsPrefixVal, List.takeWhile, h]

/-- The code's byte loop computes the spec's byte fold, over hex strings. -/
theorem crc16Loop_eq_spec (crc : Nat) (l : JStr)
    (hhex : ∀ c ∈ l, (hexVal? c).isSome) :
    crc16Loop crc l
      = (specHexBytes l).foldl (fun c b => specRound^[8] (c ^^^ (256 * b))) crc := by
  induction crc, l using crc16Loop.induct with
  | case1 crc => simp [crc16Loop, specHexBytes]
  | case2 crc c =>
    have hc := hhex c (by simp)
    simp only [crc16Loop, specHexBytes, List.foldl_cons, List.foldl_nil,
      crcByteOfChunk, jsParseInt16_one_hex c hc, crcRounds_eq_spec,
      Option.getD_some, Int.toNat_natCast]
    congr 2
    rw [Nat.shiftLeft_eq]
    omega
  | case3 crc c1 c2 rest ih =>
    have hc1 := hhex c1 (by simp)
    have hc2 := hhex c2 (by simp)
    have ih2 := ih (fun c hc => hhex c (by simp [hc]))
    simp only [crc16Loop, specHexBytes, List.foldl_cons,
      crcByteOfChunk, jsParseInt16_two_hex c1 c2 hc1 hc2, crcRounds_eq_spec,
      Option.getD_some, Int.toNat_natCast] at ih2 ⊢
    rw [ih2]
    congr 2
    rw [Nat.shiftLeft_eq]
    ring_nf

/-- One-digit unfolding of the toString(16) recursion. -/
theorem natToHexAux_lt16 (f n : Nat) (hf : 0 < f) (h : n < 16) :
    natToHexAux f n = [hexDigitChar n] := by
  cases f with
  | zero => omega
  | succ f => simp [natToHexAux, h]

/-- Digit-peeling unfolding of the toString(16) recursion. -/
theorem natToHexAux_step (f n : Nat) (hf : 0 < f) (h : ¬ n < 16) :
    natToHexAux f n = natToHexAux (f - 1) (n / 16) ++ [hexDigitChar (n % 16)] := by
  cases f with
  | zero => omega
  | succ f => simp [natToHexAux, h]

/-- Upper-casing a lowercase hex digit gives the uppercase digit. -/
theorem jsToUpper_hexDigitChar (d : Nat) (h : d < 16) :
    jsToUpper (hexDigitChar d) = upHexDigitChar d := by
  have hall : ∀ m : Nat, m < 16 → jsToUpper (hexDigitChar m) = upHexDigitChar m := by decide
  exact hall d h

/-- jsToUpper fixes the character '0'. -/
theorem jsToUpper_zero : jsToUpper '0' = '0' := by decide

/-- For a 16-bit value, padding toString(16) to 4 characters and
upper-casing yields exactly the spec's 4 uppercase hex digits. -/
theorem padStart4_natToHex_upper (n : Nat) (h : n < 65536) :
    (padStart4 (natToHex n)).map jsToUpper = specHex4 n := by
  unfold natToHex specHex4 padStart4
  by_cases h1 : n < 16
  · rw [natToHexAux_lt16 _ _ (by omega) h1]
    have e1 : n / 4096 % 16 = 0 := by omega
    have e2 : n / 256 % 16 = 0 := by omega
    have e3 : n / 16 % 16 = 0 := by omega
    have e4 : n % 16 = n := by omega
    rw [e1, e2, e3, e4]
    simp only [List.length_cons, List.length_nil]
    norm_num
    simp [List.map_cons, jsToUpper_zero, jsToUpper_hexDigitChar n h1]
    decide
  · by_cases h2 : n < 256
    · rw [natToHexAux_step _ _ (by omega) h1,
        natToHexAux_lt16 _ _ (by omega) (by omega : n / 16 < 16)]
      have e1 : n / 4096 % 16 = 0 := by omega
      have e2 : n / 256 % 16 = 0 := by omega
      have e3 : n / 16 % 16 = n / 16 := by omega
      rw [e1, e2, e3]
      simp only [List.length_append, List.length_cons, List.length_nil]
      norm_num
      simp [jsToUpper_zero, jsToUpper_hexDigitChar (n / 16) (by omega),
        jsToUpper_hexDigitChar (n % 16) (by omega)]
      decide
    · by_cases h3 : n < 4096
      · rw [natToHexAux_step _ _ (by omega) h1,
          natToHexAux_step _ _ (by omega) (by omega : ¬ n / 16 < 16),
          natToHexAux_lt16 _ _ (by omega) (by omega : n / 16 / 16 < 16)]
        have e1 : n / 4096 % 16 = 0 := by omega
        have e2 : n / 16 / 16 = n / 256 := by
          rw [Nat.div_div_eq_div_mul]
        have e3 : n / 256 % 16 = n / 256 := by omega
        have e4 : n / 16 % 16 = n / 16 % 16 := rfl
        rw [e1, e2, e3]
        simp only [List.length_append, List.length_cons, List.length_nil]
        norm_num
        simp [jsToUpper_zero, jsToUpper_hexDigitChar (n / 256) (by omega),
          jsToUpper_hexDigitChar (n / 16 % 16) (by omega),
          jsToUpper_hexDigitChar (n % 16) (by omega)]
        decide
      · rw [natToHexAux_step _ _ (by omega) h1,
          natToHexAux_step _ _ (by omega) (by omega : ¬ n / 16 < 16),
          natToHexAux_step _ _ (by omega) (by
            rw [Nat.div_div_eq_div_mul]
            omega : ¬ n / 16 / 16 < 16),
          natToHexAux_lt16 _ _ (by omega) (by
            rw [Nat.div_div_eq_div_mul, Nat.div_div_eq_div_mul]
            omega : n / 16 / 16 / 16 < 16)]
        have e2 : n / 16 / 16 = n / 256 := by rw [Nat.div_div_eq_div_mul]
        have e2b : n / 256 / 16 = n / 4096 := by
          rw [Nat.div_div_eq_div_mul]
        have e1 : n / 4096 % 16 = n / 4096 := by omega
        rw [e2, e2b, e1]
        simp only [List.length_append, List.length_cons, List.length_nil]
        norm_num
        simp [jsToUpper_hexDigitChar (n / 4096) (by omega),
          jsToUpper_hexDigitChar (n / 256 % 16) (by omega),
          jsToUpper_hexDigitChar (n / 16 % 16) (by omega),
          jsToUpper_hexDigitChar (n % 16) (by omega)]

/-- Core refinement: verifyCRC on a hex payload with a located marker
agrees with the spec-side checksum and comparison. -/
theorem verifyCRC_spec_core (payload : JStr) (idx : Nat)
    (hhex : ∀ c ∈ payload, (hexVal? c).isSome)
    (hidx : jsIndexOf payload marker6304 = some idx) :
    verifyCRC payload
      = { ok := decide (specExpectedCRC payload idx = specActualCRC payload idx),
          expected := some (specExpectedCRC payload idx),
          actual := some (specActualCRC payload idx) }
    ∧ (specExpectedCRC payload idx).length = 4 := by
  have hhexdata : ∀ c ∈ payload.take (idx + 4), (hexVal? c).isSome :=
    fun c hc => hhex c (List.take_subset _ _ hc)
  have hlt : crc16Loop 0xFFFF (payload.take (idx + 4)) < 65536 :=
    crc16Loop_lt _ _ (by norm_num)
  have hdata : jsSlice payload 0 ((idx : Int) + 4) = payload.take (idx + 4) := by
    rw [show (0 : Int) = ((0 : Nat) : Int) from rfl,
      show (idx : Int) + 4 = ((idx + 4 : Nat) : Int) by push_cast; ring,
      jsSlice_cast]
    simp
  have hact : jsSlice payload ((idx : Int) + 4) ((idx : Int) + 8)
      = (payload.drop (idx + 4)).take 4 := by
    rw [show (idx : Int) + 4 = ((idx + 4 : Nat) : Int) by push_cast; ring,
      show (idx : Int) + 8 = ((idx + 8 : Nat) : Int) by push_cast; ring,
      jsSlice_cast]
    congr 1
    omega
  have hexp : (crc16ccitt (payload.take (idx + 4))).map jsToUpper
      = specExpectedCRC payload idx := by
    unfold crc16ccitt specExpectedCRC
    rw [padStart4_natToHex_upper _ hlt, crc16Loop_eq_spec _ _ hhexdata]
    rfl
  constructor
  · unfold verifyCRC
    rw [hidx]
    simp only [hdata, hact, hexp]
    rfl
  · rfl

/-- C1: for a hex payload containing the "6304" marker, verifyCRC computes
expected as the CRC-16/CCITT-FALSE checksum of the prefix through the
marker (two hex characters per byte), rendered as exactly 4 uppercase hex
digits; actual is the 4 characters after the marker upper-cased; and ok
holds exactly when the two agree. -/
theorem verifyCRC_meets_spec (payload : JStr) (idx : Nat)
    (hhex : ∀ c ∈ payload, (hexVal? c).isSome)
    (hidx : jsIndexOf payload marker6304 = some idx) :
    verifyCRC payload
      = { ok := decide (specExpectedCRC payload idx = specActualCRC payload idx),
          expected := some (specExpectedCRC payload idx),
          actual := some (specActualCRC payload idx) }
    ∧ (specExpectedCRC payload idx).length = 4 :=
  verifyCRC_spec_core payload idx hhex hidx

/-- C1 witness: a concrete hex payload with its marker at index 0. -/
theorem verifyCRC_meets_spec_witness :
    verifyCRC ['6', '3', '0', '4', '0', '3', 'F', '2']
      = { ok := decide
            (specExpectedCRC ['6', '3', '0', '4', '0', '3', 'F', '2'] 0
              = specActualCRC ['6', '3', '0', '4', '0', '3', 'F', '2'] 0),
          expected := some (specExpectedCRC ['6', '3', '0', '4', '0', '3', 'F', '2'] 0),
          actual := some (specActualCRC ['6', '3', '0', '4', '0', '3', 'F', '2'] 0) }
    ∧ (specExpectedCRC ['6', '3', '0', '4', '0', '3', 'F', '2'] 0).length = 4 :=
  verifyCRC_meets_spec ['6', '3', '0', '4', '0', '3', 'F', '2'] 0 (by decide) (by decide)

/-- Inverse of the shift round on 16-bit values. -/
def crcRoundInv (r : Nat) : Nat :=
  if r % 2 = 1 then 32768 + (r ^^^ 0x1021) / 2 else r / 2

/-- The shift round characterized arithmetically on 16-bit values. -/
theorem crcRound_arith (c : Nat) (h : c < 65536) :
    crcRound c = if 32768 ≤ c then (2 * (c - 32768)) ^^^ 0x1021 else 2 * c := by
  rw [crcRound_eq_spec]
  unfold specRound
  have htb : c.testBit 15 = decide (32768 ≤ c) := by
    rw [Nat.testBit_to_div_mod]
    rcases Nat.lt_or_ge c 32768 with hc | hc
    · have : c / 2 ^ 15 = 0 := by
        apply Nat.div_eq_of_lt
        norm_num
        omega
      rw [this]
      simp
      omega
    · have : c / 2 ^ 15 = 1 := by
        norm_num
        omega
      rw [this]
      simp
      omega
  rw [htb]
  by_cases hc : 32768 ≤ c
  · rw [if_pos (by simp [hc]), if_pos hc]
    have h2 : 2 * c % 65536 = 2 * (c - 32768) := by omega
    have hmask : ∀ x : Nat, x &&& 65535 = x % 65536 := by
      intro x
      have hx := Nat.and_pow_two_sub_one_eq_mod x 16
      norm_num at hx
      exact hx
    have h4129 : (4129 : Nat) &&& 65535 = 4129 := by decide
    have hdist : (2 * c ^^^ 4129) % 65536 = (2 * c % 65536) ^^^ 4129 := by
      rw [← hmask (2 * c ^^^ 4129), Nat.and_xor_distrib_right, hmask (2 * c), h4129]
    rw [hdist, h2]
  · rw [if_neg (by simp [hc]), if_neg hc]
    omega

/-- XOR of 16-bit values stays within 16 bits. -/
theorem xor_lt_65536 (a b : Nat) (ha : a < 65536) (hb : b < 65536) :
    a ^^^ b < 65536 := by
  have h16 : (65536 : Nat) = 2 ^ 16 := by norm_num
  rw [h16] at ha hb ⊢
  exact Nat.xor_lt_two_pow ha hb

/-- crcRoundInv inverts the shift round on 16-bit values. -/
theorem crcRoundInv_round (c : Nat) (h : c < 65536) : crcRoundInv (crcRound c) = c := by
  rw [crcRound_arith c h]
  unfold crcRoundInv
  by_cases hc : 32768 ≤ c
  · rw [if_pos hc]
    have heven : (2 * (c - 32768)) % 2 = 0 := by omega
    have hodd : ((2 * (c - 32768)) ^^^ 4129) % 2 = 1 := by
      have hb := Nat.testBit_xor (2 * (c - 32768)) 4129 0
      simp only [Nat.testBit_to_div_mod, pow_zero, Nat.div_one] at hb
      rw [heven] at hb
      simp at hb ⊢
      omega
    rw [if_pos hodd, Nat.xor_assoc, Nat.xor_self, Nat.xor_zero]
    omega
  · rw [if_neg hc]
    have : (2 * c) % 2 = 0 := by omega
    rw [if_neg (by omega)]
    omega

/-- The shift round is injective on 16-bit values. -/
theorem crcRound_inj (a b : Nat) (ha : a < 65536) (hb : b < 65536)
    (h : crcRound a = crcRound b) : a = b := by
  have h2 := congrArg crcRoundInv h
  rwa [crcRoundInv_round a ha, crcRoundInv_round b hb] at h2

/-- Iterated rounds are injective on 16-bit values. -/
theorem crcRounds_inj (n a b : Nat) (ha : a < 65536) (hb : b < 65536)
    (h : crcRounds n a = crcRounds n b) : a = b := by
  induction n generalizing a b with
  | zero => exact h
  | succ n ih =>
    exact crcRound_inj a b ha hb
      (ih (crcRound a) (crcRound b) (crcRound_lt a) (crcRound_lt b) h)

/-- Folding in the same byte from different registers keeps them apart. -/
theorem crcStep_inj_state (a b x : Nat) (ha : a < 65536) (hb : b < 65536)
    (hx : x < 65536) (h : crcRounds 8 (a ^^^ x) = crcRounds 8 (b ^^^ x)) : a = b := by
  have h2 := crcRounds_inj 8 _ _ (xor_lt_65536 a x ha hx) (xor_lt_65536 b x hb hx) h
  have h3 := congrArg (fun t => t ^^^ x) h2
  simpa [Nat.xor_assoc, Nat.xor_self, Nat.xor_zero] using h3

/-- Folding different bytes into the same register separates it. -/
theorem crcStep_ne_of_byte_ne (crc b b2 : Nat) (hc : crc < 65536)
    (hb : b < 256) (hb2 : b2 < 256) (hne : b ≠ b2) :
    crcRounds 8 (crc ^^^ (b <<< 8)) ≠ crcRounds 8 (crc ^^^ (b2 <<< 8)) := by
  intro hEq
  have hx1 : b <<< 8 < 65536 := by
    rw [Nat.shiftLeft_eq]
    norm_num
    omega
  have hx2 : b2 <<< 8 < 65536 := by
    rw [Nat.shiftLeft_eq]
    norm_num
    omega
  have h2 := crcRounds_inj 8 _ _ (xor_lt_65536 crc _ hc hx1) (xor_lt_65536 crc _ hc hx2) hEq
  have h3 := congrArg (fun t => crc ^^^ t) h2
  simp only [← Nat.xor_assoc, Nat.xor_self, Nat.zero_xor] at h3
  rw [Nat.shiftLeft_eq, Nat.shiftLeft_eq] at h3
  norm_num at h3
  omega

/-- Byte value of a lone hex character chunk. -/
theorem crcByteOfChunk_one (x : Char) (h : (hexVal? x).isSome) :
    crcByteOfChunk [x] = (hexVal? x).getD 0 := by
  unfold crcByteOfChunk
  rw [jsParseInt16_one_hex x h]
  simp only [Option.getD_some, Int.toNat_natCast]

/-- Byte value of a two-hex-character chunk. -/
theorem crcByteOfChunk_two (x y : Char) (hx : (hexVal? x).isSome)
    (hy : (hexVal? y).isSome) :
    crcByteOfChunk [x, y] = 16 * (hexVal? x).getD 0 + (hexVal? y).getD 0 := by
  unfold crcByteOfChunk
  rw [jsParseInt16_two_hex x y hx hy]
  simp only [Option.getD_some, Int.toNat_natCast]

/-- Different 16-bit registers stay different across the loop over a hex
string. -/
theorem crc16Loop_ne : ∀ (l : JStr), (∀ ch ∈ l, (hexVal? ch).isSome) →
    ∀ (a b : Nat), a < 65536 → b < 65536 → a ≠ b →
    crc16Loop a l ≠ crc16Loop b l
  | [], _, a, b, _, _, hne => by simpa [crc16Loop] using hne
  | [c1], hhex, a, b, ha, hb, hne => by
    have h1 := hhex c1 (by simp)
    simp only [crc16Loop]
    intro hEq
    have hx : crcByteOfChunk [c1] <<< 8 < 65536 := by
      rw [crcByteOfChunk_one c1 h1, Nat.shiftLeft_eq]
      have := hexVal_lt c1
      norm_num
      omega
    exact hne (crcStep_inj_state a b _ ha hb hx hEq)
  | c1 :: c2 :: rest, hhex, a, b, ha, hb, hne => by
    have h1 := hhex c1 (by simp)
    have h2 := hhex c2 (by simp)
    simp only [crc16Loop]
    apply crc16Loop_ne rest (fun ch hch => hhex ch (by simp [hch]))
      _ _ (crcRounds_lt 8 _ (by omega)) (crcRounds_lt 8 _ (by omega))
    intro hEq
    have hx : crcByteOfChunk [c1, c2] <<< 8 < 65536 := by
      rw [crcByteOfChunk_two c1 c2 h1 h2, Nat.shiftLeft_eq]
      have hv1 := hexVal_lt c1
      have hv2 := hexVal_lt c2
      norm_num
      omega
    exact hne (crcStep_inj_state a b _ ha hb hx hEq)

/-- Changing one character of a hex string to a hex character with a
different digit value changes the loop result. -/
theorem crc16Loop_set_ne : ∀ (l : JStr) (p : Nat) (c : Char) (a : Nat),
    (∀ ch ∈ l, (hexVal? ch).isSome) → (hexVal? c).isSome →
    ∀ (hp : p < l.length),
    (hexVal? c).getD 0 ≠ (hexVal? l[p]).getD 0 →
    a < 65536 →
    crc16Loop a l ≠ crc16Loop a (l.set p c)
  | [], p, c, a, _, _, hp, _, _ => by simp at hp
  | [c1], 0, c, a, hhex, hc, hp, hne, ha => by
    have h1 := hhex c1 (by simp)
    simp only [List.set_cons_zero, crc16Loop]
    apply crcStep_ne_of_byte_ne a _ _ ha
    · rw [crcByteOfChunk_one c1 h1]
      have := hexVal_lt c1
      omega
    · rw [crcByteOfChunk_one c hc]
      have := hexVal_lt c
      omega
    · rw [crcByteOfChunk_one c1 h1, crcByteOfChunk_one c hc]
      simp only [List.getElem_cons_zero] at hne
      omega
  | [c1], p + 1, c, a, hhex, hc, hp, hne, ha => by simp at hp
  | c1 :: c2 :: rest, 0, c, a, hhex, hc, hp, hne, ha => by
    have h1 := hhex c1 (by simp)
    have h2 := hhex c2 (by simp)
    have hrest : ∀ ch ∈ rest, (hexVal? ch).isSome :=
      fun ch hch => hhex ch (by simp [hch])
    simp only [List.set_cons_zero, crc16Loop]
    apply crc16Loop_ne rest hrest _ _
      (crcRounds_lt 8 _ (by omega)) (crcRounds_lt 8 _ (by omega))
    apply crcStep_ne_of_byte_ne a _ _ ha
    · rw [crcByteOfChunk_two c1 c2 h1 h2]
      have hv1 := hexVal_lt c1
      have hv2 := hexVal_lt c2
      omega
    · rw [crcByteOfChunk_two c c2 hc h2]
      have hv1 := hexVal_lt c
      have hv2 := hexVal_lt c2
      omega
    · rw [crcByteOfChunk_two c1 c2 h1 h2, crcByteOfChunk_two c c2 hc h2]
      simp only [List.getElem_cons_zero] at hne
      omega
  | c1 :: c2 :: rest, 1, c, a, hhex, hc, hp, hne, ha => by
    have h1 := hhex c1 (by simp)
    have h2 := hhex c2 (by simp)
    have hrest : ∀ ch ∈ rest, (hexVal? ch).isSome :=
      fun ch hch => hhex ch (by simp [hch])
    simp only [List.set_cons_succ, List.set_cons_zero, crc16Loop]
    apply crc16Loop_ne rest hrest _ _
      (crcRounds_lt 8 _ (by omega)) (crcRounds_lt 8 _ (by omega))
    apply crcStep_ne_of_byte_ne a _ _ ha
    · rw [crcByteOfChunk_two c1 c2 h1 h2]
      have hv1 := hexVal_lt c1
      have hv2 := hexVal_lt c2
      omega
    · rw [crcByteOfChunk_two c1 c h1 hc]
      have hv1 := hexVal_lt c1
      have hv2 := hexVal_lt c
      omega
    · rw [crcByteOfChunk_two c1 c2 h1 h2, crcByteOfChunk_two c1 c h1 hc]
      simp only [List.getElem_cons_succ, List.getElem_cons_zero] at hne
      omega
  | c1 :: c2 :: rest, p + 2, c, a, hhex, hc, hp, hne, ha => by
    have h1 := hhex c1 (by simp)
    have h2 := hhex c2 (by simp)
    have hrest : ∀ ch ∈ rest, (hexVal? ch).isSome :=
      fun ch hch => hhex ch (by simp [hch])
    have hp2 : p < rest.length := by
      simp only [List.length_cons] at hp
      omega
    have hne2 : (hexVal? c).getD 0 ≠ (hexVal? rest[p]).getD 0 := by
      simpa only [List.getElem_cons_succ] using hne
    simp only [List.set_cons_succ, crc16Loop]
    exact crc16Loop_set_ne rest p c _ hrest hc hp2 hne2
      (crcRounds_lt 8 _ (by omega))

/-- The 4-digit uppercase rendering is injective on 16-bit values. -/
theorem specHex4_inj (a b : Nat) (ha : a < 65536) (hb : b < 65536)
    (h : specHex4 a = specHex4 b) : a = b := by
  unfold specHex4 at h
  simp only [List.cons.injEq, and_true] at h
  obtain ⟨h1, h2, h3, h4⟩ := h
  have hinj : ∀ d : Nat, d < 16 → ∀ e : Nat, e < 16 →
      upHexDigitChar d = upHexDigitChar e → d = e := by
    decide
  have e1 := hinj _ (by omega) _ (by omega) h1
  have e2 := hinj _ (by omega) _ (by omega) h2
  have e3 := hinj _ (by omega) _ (by omega) h3
  have e4 := hinj _ (by omega) _ (by omega) h4
  omega

/-- A found index points at an occurrence of the pattern. -/
theorem jsIndexOf_startsWith : ∀ (s pat : JStr) (i : Nat),
    jsIndexOf s pat = some i → startsWith (s.drop i) pat = true := by
  intro s
  induction s with
  | nil =>
    intro pat i h
    simp only [jsIndexOf] at h
    split at h
    · next hsw =>
      cases h
      simpa using hsw
    · simp at h
  | cons c rest ih =>
    intro pat i h
    simp only [jsIndexOf] at h
    split at h
    · next hsw =>
      cases h
      simpa using hsw
    · next hsw =>
      obtain ⟨j, hj, hij⟩ := Option.map_eq_some'.mp h
      subst hij
      rw [List.drop_succ_cons]
      exact ih pat j hj

/-- A match requires at least the pattern's length. -/
theorem startsWith_length : ∀ (s pat : JStr), startsWith s pat = true → pat.length ≤ s.length
  | _, [], _ => by simp
  | [], p :: ps, h => by simp [startsWith] at h
  | c :: cs, p :: ps, h => by
    simp only [startsWith, Bool.and_eq_true] at h
    have := startsWith_length cs ps h.2
    simp only [List.length_cons]
    omega

/-- A found occurrence of a nonempty pattern lies inside the string. -/
theorem jsIndexOf_le_length (s pat : JStr) (i : Nat) (hpat : 0 < pat.length)
    (h : jsIndexOf s pat = some i) : i + pat.length ≤ s.length := by
  have h1 := jsIndexOf_startsWith s pat i h
  have h2 := startsWith_length _ _ h1
  rw [List.length_drop] at h2
  omega

/-- C9 (amended): if a hex payload passes verifyCRC, then replacing a
character strictly before the marker by a hex character with a different
digit value, in a way that leaves the first occurrence of "6304" at the
same index, changes the expected checksum and makes ok false. -/
theorem crc_sensitivity_amended (payload : JStr) (idx p : Nat) (c : Char)
    (hhex : ∀ ch ∈ payload, (hexVal? ch).isSome)
    (hc : (hexVal? c).isSome)
    (hidx : jsIndexOf payload marker6304 = some idx)
    (hp : p < idx)
    (hpl : p < payload.length)
    (hval : (hexVal? c).getD 0 ≠ (hexVal? payload[p]).getD 0)
    (hidx2 : jsIndexOf (payload.set p c) marker6304 = some idx)
    (hok : (verifyCRC payload).ok = true) :
    (verifyCRC (payload.set p c)).expected ≠ (verifyCRC payload).expected
    ∧ (verifyCRC (payload.set p c)).ok = false := by
  have hlen4 : idx + 4 ≤ payload.length :=
    jsIndexOf_le_length payload marker6304 idx (by simp [marker6304]) hidx
  have hhexq : ∀ ch ∈ payload.set p c, (hexVal? ch).isSome := by
    intro ch hch
    rcases List.mem_or_eq_of_mem_set hch with hmem | rfl
    · exact hhex ch hmem
    · exact hc
  have hspec1 := verifyCRC_spec_core payload idx hhex hidx
  have hspec2 := verifyCRC_spec_core (payload.set p c) idx hhexq hidx2
  have hdlen : (payload.take (idx + 4)).length = idx + 4 := by
    rw [List.length_take]
    omega
  have hdataq : (payload.set p c).take (idx + 4) = (payload.take (idx + 4)).set p c :=
    List.set_take
  have hhexdata : ∀ ch ∈ payload.take (idx + 4), (hexVal? ch).isSome :=
    fun ch hch => hhex ch (List.take_subset _ _ hch)
  have hhexdata2 : ∀ ch ∈ (payload.take (idx + 4)).set p c, (hexVal? ch).isSome := by
    intro ch hch
    rcases List.mem_or_eq_of_mem_set hch with hmem | rfl
    · exact hhexdata ch hmem
    · exact hc
  have hpd : p < (payload.take (idx + 4)).length := by omega
  have hgetd : (payload.take (idx + 4))[p] = payload[p] := List.getElem_take _
  have hv1 : crc16Loop 0xFFFF (payload.take (idx + 4)) < 65536 :=
    crc16Loop_lt _ _ (by norm_num)
  have hv2 : crc16Loop 0xFFFF ((payload.take (idx + 4)).set p c) < 65536 :=
    crc16Loop_lt _ _ (by norm_num)
  have hcrcne : crc16Loop 0xFFFF (payload.take (idx + 4))
      ≠ crc16Loop 0xFFFF ((payload.take (idx + 4)).set p c) :=
    crc16Loop_set_ne _ p c 0xFFFF hhexdata hc hpd
      (by rw [hgetd]; exact hval) (by norm_num)
  have hexp1 : specExpectedCRC payload idx
      = specHex4 (crc16Loop 0xFFFF (payload.take (idx + 4))) := by
    unfold specExpectedCRC specCRC16
    rw [← crc16Loop_eq_spec _ _ hhexdata]
  have hexp2 : specExpectedCRC (payload.set p c) idx
      = specHex4 (crc16Loop 0xFFFF ((payload.take (idx + 4)).set p c)) := by
    unfold specExpectedCRC specCRC16
    rw [hdataq, ← crc16Loop_eq_spec _ _ hhexdata2]
  have hexpne : specExpectedCRC (payload.set p c) idx ≠ specExpectedCRC payload idx := by
    rw [hexp1, hexp2]
    intro hEq
    exact hcrcne (specHex4_inj _ _ hv2 hv1 hEq).symm
  have hactq : specActualCRC (payload.set p c) idx = specActualCRC payload idx := by
    unfold specActualCRC
    rw [List.drop_set, if_pos (by omega : p < idx + 4)]
  have hok2 : specExpectedCRC payload idx = specActualCRC payload idx := by
    rw [hspec1.1] at hok
    exact of_decide_eq_true hok
  constructor
  · rw [hspec1.1, hspec2.1]
    intro hEq
    exact hexpne (Option.some.inj hEq)
  · rw [hspec2.1]
    show decide (specExpectedCRC (payload.set p c) idx
      = specActualCRC (payload.set p c) idx) = false
    rw [decide_eq_false_iff_not, hactq, ← hok2]
    exact hexpne

/-- C9 counterexample: replacing the lowercase hex character 'a' by the
different hex character 'A' before the marker leaves the expected checksum
unchanged and ok stays true, refuting the claim for case-variant
replacements. -/
theorem crc_sensitivity_counterexample :
    (verifyCRC ['6', 'a', '6', '3', '0', '4', '8', 'E', 'C', 'B']).ok = true
    ∧ jsIndexOf ['6', 'a', '6', '3', '0', '4', '8', 'E', 'C', 'B'] marker6304 = some 2
    ∧ 1 < 2
    ∧ ('A' : Char) ≠ 'a'
    ∧ (hexVal? 'A').isSome
    ∧ ['6', 'a', '6', '3', '0', '4', '8', 'E', 'C', 'B'].set 1 'A'
        = ['6', 'A', '6', '3', '0', '4', '8', 'E', 'C', 'B']
    ∧ (verifyCRC (['6', 'a', '6', '3', '0', '4', '8', 'E', 'C', 'B'].set 1 'A')).expected
        = (verifyCRC ['6', 'a', '6', '3', '0', '4', '8', 'E', 'C', 'B']).expected
    ∧ (verifyCRC (['6', 'a', '6', '3', '0', '4', '8', 'E', 'C', 'B'].set 1 'A')).ok = true := by
  decide

/-- C9 witness: a concrete valid payload where changing the digit '0' to '1'
before the marker flips the check. -/
theorem crc_sensitivity_amended_witness :
    (verifyCRC (['0', '0', '6', '3', '0', '4', 'D', '2', '6', '1'].set 0 '1')).expected
      ≠ (verifyCRC ['0', '0', '6', '3', '0', '4', 'D', '2', '6', '1']).expected
    ∧ (verifyCRC (['0', '0', '6', '3', '0', '4', 'D', '2', '6', '1'].set 0 '1')).ok = false :=
  crc_sensitivity_amended ['0', '0', '6', '3', '0', '4', 'D', '2', '6', '1'] 2 0 '1'
    (by decide) (by decide) (by decide) (by decide) (by decide) (by decide)
    (by decide) (by decide)

/-- Whole-string digit value in a base: none if empty or any stray
character occurs (the digit runs inside Number()). -/
def radixDigitsVal (dv : Char → Option Nat) (base : Nat) (s : JStr) : Option Nat :=
  if s.isEmpty then none
  else s.foldl (fun acc c =>
    match acc, dv c with
    | some a, some d => some (base * a + d)
    | _, _ => none) (some 0)

/-- Binary digit value. -/
def binVal? (c : Char) : Option Nat :=
  if c = '0' then some 0 else if c = '1' then some 1 else none

/-- Octal digit value. -/
def octVal? (c : Char) : Option Nat :=
  if '0' ≤ c ∧ c ≤ '7' then some (c.toNat - '0'.toNat) else none

/-- Ten to an integer power, as a rational. -/
def tenPow (e : Int) : ℚ := (10 : ℚ) ^ e

/-- A JavaScript decimal literal — digits, optional fraction, optional
exponent — as an exact rational; none when malformed. -/
def jsDecimalVal (s : JStr) : Option ℚ :=
  let mant := s.takeWhile (fun c => c ≠ 'e' && c ≠ 'E')
  let expPart := s.dropWhile (fun c => c ≠ 'e' && c ≠ 'E')
  let e? : Option Int :=
    match expPart with
    | [] => some 0
    | _ :: r =>
      match r with
      | '+' :: r2 => (radixDigitsVal digitVal? 10 r2).map Int.ofNat
      | '-' :: r2 => (radixDigitsVal digitVal? 10 r2).map (fun v => -(Int.ofNat v))
      | _ => (radixDigitsVal digitVal? 10 r).map Int.ofNat
  let ip := mant.takeWhile (fun c => c ≠ '.')
  let fpPart := mant.dropWhile (fun c => c ≠ '.')
  let fp := match fpPart with | [] => ([] : JStr) | _ :: r => r
  let ipOk := ip.all (fun c => (digitVal? c).isSome)
  let fpOk := fp.all (fun c => (digitVal? c).isSome)
  let anyDigit := !ip.isEmpty || !fp.isEmpty
  match e? with
  | none => none
  | some e =>
    if ipOk && fpOk && anyDigit then
      let ipV := ip.foldl (fun a c => 10 * a + (digitVal? c).getD 0) 0
      let fpV := fp.foldl (fun a c => 10 * a + (digitVal? c).getD 0) 0
      some ((((ipV : ℚ) * 10 ^ fp.length + fpV) / 10 ^ fp.length) * tenPow e)
    else none

/-- JavaScript Number(string) conversion, as an exact rational; none models
NaN.  Infinity cannot arise from a hex-shaped payload value, and an
infinite result would behave exactly like none in every comparison this
policy makes. -/
def jsNumber (s : JStr) : Option ℚ :=
  let t := ((s.dropWhile isJsSpace).reverse.dropWhile isJsSpace).reverse
  match t with
  | [] => some 0
  | '0' :: 'x' :: r => (radixDigitsVal hexVal? 16 r).map (fun v => (v : ℚ))
  | '0' :: 'X' :: r => (radixDigitsVal hexVal? 16 r).map (fun v => (v : ℚ))
  | '0' :: 'o' :: r => (radixDigitsVal octVal? 8 r).map (fun v => (v : ℚ))
  | '0' :: 'O' :: r => (radixDigitsVal octVal? 8 r).map (fun v => (v : ℚ))
  | '0' :: 'b' :: r => (radixDigitsVal binVal? 2 r).map (fun v => (v : ℚ))
  | '0' :: 'B' :: r => (radixDigitsVal binVal? 2 r).map (fun v => (v : ℚ))
  | '+' :: r => jsDecimalVal r
  | '-' :: r => (jsDecimalVal r).map Neg.neg
  | _ => jsDecimalVal t

/-- The two reachable verdicts of the slip policy. -/
inductive SlipStatus where
  | VERIFIED_PRELIM
  | REVIEW
deriving DecidableEq

/-- The structured content of the JSON reason written on REVIEW: the four
check results.  accountMatches is an Option Bool because the JS value is
null when the merchant template is missing. -/
structure ReviewRec where
  crc : Bool
  accountMatches : Option Bool
  amountMatches : Bool
  currency : JStr
deriving DecidableEq

/-- A slip reason: a fixed message, or the JSON record of the four check
results (JSON.stringify modelled structurally). -/
inductive SlipReason where
  | text (msg : JStr)
  | json (r : ReviewRec)
deriving DecidableEq

/-- The reason used when the payload is falsy or fails the shape gate. -/
def qrInvalidMsg : JStr := "QR not found or invalid".toList

/-- The shape gate /^[0-9A-F]+$/i as a predicate. -/
def hexShapeOk (s : JStr) : Bool := !s.isEmpty && s.all (fun c => (hexVal? c).isSome)

/-- JS member access node.sub: an object for a composite node, undefined
(falsy) for a plain string. -/
def subOf : EMVValue → Option EMVObj
  | .composite _ sub => some sub
  | .flat _ => none

/-- tlv['29']?.sub || tlv['26']?.sub || null.  An empty sub object is still
truthy, so a present tag 29 always wins. -/
def templateSub (tlv : EMVObj) : Option EMVObj :=
  match (objGet tlv ['2', '9']).bind subOf with
  | some m => some m
  | none => (objGet tlv ['2', '6']).bind subOf

/-- tlv['54'] ? Number(tlv['54']) : null — the outer none is JS null (tag
absent or empty, both falsy), the inner none is NaN.  Tag 54 is never
composite in a parseEMV result; Number of an object would be NaN. -/
def amountOf (tlv : EMVObj) : Option (Option ℚ) :=
  match objGet tlv ['5', '4'] with
  | some (.flat v) => if v.isEmpty then none else some (jsNumber v)
  | some (.composite _ _) => some none
  | none => none

/-- (tlv['58'] || '').toString().toUpperCase() — a composite node would
stringify to "[object Object]", which cannot arise for tag 58. -/
def currencyOf (tlv : EMVObj) : JStr :=
  match objGet tlv ['5', '8'] with
  | some (.flat v) => v.map jsToUpper
  | some (.composite _ _) => ("[object Object]".toList).map jsToUpper
  | none => []

/-- String.prototype.includes. -/
def jsIncludes (s sub : JStr) : Bool := (jsIndexOf s sub).isSome

/-- One template value is a string containing the configured id (a nested
object fails the typeof check). -/
def valueHasId (pp : JStr) : EMVValue → Bool
  | .flat v => jsIncludes v pp
  | .composite _ _ => false

/-- expectedPromptpay ? (m && Object.values(m).some(v => typeof v ===
'string' && v.includes(expectedPromptpay))) : true — none models the JS
null produced when the template is missing. -/
def accountMatchesOf (pp : JStr) (tlv : EMVObj) : Option Bool :=
  if pp.isEmpty then some true
  else
    match templateSub tlv with
    | none => none
    | some m => some ((m.map Prod.snd).any (valueHasId pp))

/-- amount == null ? true : Math.abs(amount - Number(total)) < 0.01, over
exact rationals; a NaN amount fails the comparison as in JS. -/
def amountMatchesOf (tlv : EMVObj) (total : ℚ) : Bool :=
  match amountOf tlv with
  | none => true
  | some none => false
  | some (some q) => |q - total| < 1 / 100

/-- !currency || currency === 'TH' || currency === 'THB' || currency === '764'. -/
def currencyOKOf (cur : JStr) : Bool :=
  cur.isEmpty || cur = ['T', 'H'] || cur = ['T', 'H', 'B'] || cur = ['7', '6', '4']

/-- The slip verification policy from server.js (checkout flow), from the
decoded QR payload (none models a failed decode, which JS leaves as null)
to (slipStatus, slipReason).  The no-file branch and the catch branch
("QR decode error") sit outside this fragment. -/
def slipVerify (payload? : Option JStr) (promptpayId : JStr) (total : ℚ) :
    SlipStatus × Option SlipReason :=
  match payload? with
  | none => (.REVIEW, some (.text qrInvalidMsg))
  | some payload =>
    if hexShapeOk payload then
      let crc := verifyCRC payload
      let tlv := parseEMV payload
      let acct := accountMatchesOf promptpayId tlv
      let amt := amountMatchesOf tlv total
      let cur := currencyOf tlv
      if crc.ok && acct == some true && amt && currencyOKOf cur then
        (.VERIFIED_PRELIM, none)
      else
        (.REVIEW, some (.json ⟨crc.ok, acct, amt, cur⟩))
    else (.REVIEW, some (.text qrInvalidMsg))

/-- C8: a falsy payload (failed decode or empty string) or one failing the
hex shape gate yields REVIEW with reason exactly "QR not found or invalid",
with no parsing or CRC checking reached and no exception. -/
theorem qr_invalid_path (payload? : Option JStr) (pp : JStr) (total : ℚ)
    (h : payload? = none ∨ ∃ s, payload? = some s ∧ hexShapeOk s = false) :
    slipVerify payload? pp total
      = (SlipStatus.REVIEW, some (SlipReason.text qrInvalidMsg)) := by
  rcases h with rfl | ⟨s, rfl, hs⟩
  · rfl
  · simp [slipVerify, hs]

/-- C8 witness: the empty string and a non-hex payload both take the
invalid path. -/
theorem qr_invalid_path_witness :
    slipVerify (some []) [] 0
      = (SlipStatus.REVIEW, some (SlipReason.text qrInvalidMsg)) :=
  qr_invalid_path (some []) [] 0 (Or.inr ⟨[], rfl, by decide⟩)

/-- C3: the verdict is VERIFIED_PRELIM exactly when the CRC is ok, the
account matches (truthy), the amount matches and the currency is accepted;
otherwise the verdict is REVIEW and the reason records the four check
results; and the verdict is always one of these two states. -/
theorem slip_verdict_rule (payload? : Option JStr) (pp : JStr) (total : ℚ) :
    ((slipVerify payload? pp total).1 = SlipStatus.VERIFIED_PRELIM
      ∨ (slipVerify payload? pp total).1 = SlipStatus.REVIEW)
    ∧ ∀ payload, payload? = some payload → hexShapeOk payload = true →
        (((slipVerify payload? pp total).1 = SlipStatus.VERIFIED_PRELIM
          ↔ ((verifyCRC payload).ok = true
             ∧ accountMatchesOf pp (parseEMV payload) = some true
             ∧ amountMatchesOf (parseEMV payload) total = true
             ∧ currencyOKOf (currencyOf (parseEMV payload)) = true))
         ∧ ((slipVerify payload? pp total).1 = SlipStatus.REVIEW →
             slipVerify payload? pp total
               = (SlipStatus.REVIEW, some (SlipReason.json
                   ⟨(verifyCRC payload).ok, accountMatchesOf pp (parseEMV payload),
                    amountMatchesOf (parseEMV payload) total,
                    currencyOf (parseEMV payload)⟩)))) := by
  constructor
  · match hp : payload? with
    | none => right; rfl
    | some payload =>
      simp only [slipVerify]
      split
      · split
        · left; rfl
        · right; rfl
      · right; rfl
  · intro payload hpay hshape
    subst hpay
    simp only [slipVerify, hshape, if_true]
    by_cases hcond : ((verifyCRC payload).ok
        && accountMatchesOf pp (parseEMV payload) == some true
        && amountMatchesOf (parseEMV payload) total
        && currencyOKOf (currencyOf (parseEMV payload))) = true
    · rw [if_pos hcond]
      simp only [Bool.and_eq_true, beq_iff_eq] at hcond
      constructor
      · simp only [true_iff]
        exact ⟨hcond.1.1.1, hcond.1.1.2, hcond.1.2, hcond.2⟩
      · intro hrev
        cases hrev
    · rw [if_neg hcond]
      constructor
      · simp only [Bool.and_eq_true, beq_iff_eq] at hcond
        constructor
        · intro hv
          cases hv
        · intro hconj
          exact absurd ⟨⟨⟨hconj.1, hconj.2.1⟩, hconj.2.2.1⟩, hconj.2.2.2⟩ hcond
      · intro _
        rfl

/-- C3 witness: the verdict rule at a concrete valid payload. -/
theorem slip_verdict_rule_witness :
    (((slipVerify (some ['6', '3', '0', '4', '0', '3', 'F', '2']) [] 0).1
        = SlipStatus.VERIFIED_PRELIM
      ↔ ((verifyCRC ['6', '3', '0', '4', '0', '3', 'F', '2']).ok = true
         ∧ accountMatchesOf [] (parseEMV ['6', '3', '0', '4', '0', '3', 'F', '2'])
             = some true
         ∧ amountMatchesOf (parseEMV ['6', '3', '0', '4', '0', '3', 'F', '2']) 0 = true
         ∧ currencyOKOf (currencyOf (parseEMV ['6', '3', '0', '4', '0', '3', 'F', '2']))
             = true))
     ∧ ((slipVerify (some ['6', '3', '0', '4', '0', '3', 'F', '2']) [] 0).1
          = SlipStatus.REVIEW →
         slipVerify (some ['6', '3', '0', '4', '0', '3', 'F', '2']) [] 0
           = (SlipStatus.REVIEW, some (SlipReason.json
               ⟨(verifyCRC ['6', '3', '0', '4', '0', '3', 'F', '2']).ok,
                accountMatchesOf [] (parseEMV ['6', '3', '0', '4', '0', '3', 'F', '2']),
                amountMatchesOf (parseEMV ['6', '3', '0', '4', '0', '3', 'F', '2']) 0,
                currencyOf (parseEMV ['6', '3', '0', '4', '0', '3', 'F', '2'])⟩)))) :=
  (slip_verdict_rule (some ['6', '3', '0', '4', '0', '3', 'F', '2']) [] 0).2
    ['6', '3', '0', '4', '0', '3', 'F', '2'] rfl (by decide)

/-- C2 counterexample: a payload with valid CRC and no tag 29 or 26, all
other checks passing, and a configured expected id, is sent to REVIEW (the
account value is the JS null), not VERIFIED_PRELIM. -/
theorem account_absent_counterexample :
    hexShapeOk ['6', '3', '0', '4', '0', '3', 'F', '2'] = true
    ∧ (verifyCRC ['6', '3', '0', '4', '0', '3', 'F', '2']).ok = true
    ∧ objGet (parseEMV ['6', '3', '0', '4', '0', '3', 'F', '2']) ['2', '9'] = none
    ∧ objGet (parseEMV ['6', '3', '0', '4', '0', '3', 'F', '2']) ['2', '6'] = none
    ∧ amountMatchesOf (parseEMV ['6', '3', '0', '4', '0', '3', 'F', '2']) 0 = true
    ∧ currencyOKOf (currencyOf (parseEMV ['6', '3', '0', '4', '0', '3', 'F', '2'])) = true
    ∧ (['1', '2', '3'] : JStr).isEmpty = false
    ∧ slipVerify (some ['6', '3', '0', '4', '0', '3', 'F', '2']) ['1', '2', '3'] 0
        = (SlipStatus.REVIEW, some (SlipReason.json ⟨true, none, true, []⟩)) := by
  decide

/-- C2 (amended): with no merchant template present (neither tag 29 nor 26)
and every other check passing, the verdict is VERIFIED_PRELIM when no
expected id is configured, but REVIEW — with a null account value recorded —
when one is configured. -/
theorem account_template_missing (payload : JStr) (pp : JStr) (total : ℚ)
    (hshape : hexShapeOk payload = true)
    (hcrc : (verifyCRC payload).ok = true)
    (h29 : objGet (parseEMV payload) ['2', '9'] = none)
    (h26 : objGet (parseEMV payload) ['2', '6'] = none)
    (hamt : amountMatchesOf (parseEMV payload) total = true)
    (hcur : currencyOKOf (currencyOf (parseEMV payload)) = true) :
    (pp.isEmpty = true →
      slipVerify (some payload) pp total = (SlipStatus.VERIFIED_PRELIM, none))
    ∧ (pp.isEmpty = false →
      slipVerify (some payload) pp total
        = (SlipStatus.REVIEW, some (SlipReason.json
            ⟨true, none, true, currencyOf (parseEMV payload)⟩))) := by
  have hsub : templateSub (parseEMV payload) = none := by
    unfold templateSub
    rw [h29, h26]
    rfl
  constructor
  · intro hempty
    have hacct : accountMatchesOf pp (parseEMV payload) = some true := by
      unfold accountMatchesOf
      rw [if_pos hempty]
    simp only [slipVerify, hshape, if_true, hacct, hcrc, hamt, hcur]
    rfl
  · intro hnonempty
    have hacct : accountMatchesOf pp (parseEMV payload) = none := by
      unfold accountMatchesOf
      rw [if_neg (by simp [hnonempty]), hsub]
    simp only [slipVerify, hshape, if_true, hacct, hcrc, hamt, hcur]
    rfl

/-- C2 witness: the amended rule at a concrete payload with no template and
a configured id. -/
theorem account_template_missing_witness :
    ((['1', '2', '3'] : JStr).isEmpty = true →
      slipVerify (some ['6', '3', '0', '4', '0', '3', 'F', '2']) ['1', '2', '3'] 0
        = (SlipStatus.VERIFIED_PRELIM, none))
    ∧ ((['1', '2', '3'] : JStr).isEmpty = false →
      slipVerify (some ['6', '3', '0', '4', '0', '3', 'F', '2']) ['1', '2', '3'] 0
        = (SlipStatus.REVIEW, some (SlipReason.json
            ⟨true, none, true,
             currencyOf (parseEMV ['6', '3', '0', '4', '0', '3', 'F', '2'])⟩))) :=
  account_template_missing ['6', '3', '0', '4', '0', '3', 'F', '2'] ['1', '2', '3'] 0
    (by decide) (by decide) (by decide) (by decide) (by decide) (by decide)

/-- C7 counterexample: tag 54 present with an empty value.  The code treats
the amount as null and accepts (vacuous match), although parsing the empty
value as a number gives 0, which is not within 0.01 of the expected
amount 1. -/
theorem amount_empty_counterexample :
    objGet (parseEMV ['5', '4', '0', '0']) ['5', '4'] = some (EMVValue.flat [])
    ∧ amountMatchesOf (parseEMV ['5', '4', '0', '0']) 1 = true
    ∧ jsNumber [] = some 0
    ∧ ¬ (|(0 : ℚ) - 1| < 1 / 100) := by
  refine ⟨by decide, by decide, by decide, by norm_num⟩

/-- C7 (amended): when tag 54 is present with a nonempty value, the amount
matches exactly when the value parses to a number within 0.01 of the
expected amount; when tag 54 is absent, or present with an empty value, the
match is vacuously true. -/
theorem amount_tolerance (tlv : EMVObj) (total : ℚ) :
    (objGet tlv ['5', '4'] = none → amountMatchesOf tlv total = true)
    ∧ (∀ v : JStr, objGet tlv ['5', '4'] = some (EMVValue.flat v) → v ≠ [] →
        (amountMatchesOf tlv total = true
          ↔ ∃ q, jsNumber v = some q ∧ |q - total| < 1 / 100))
    ∧ (∀ v : JStr, objGet tlv ['5', '4'] = some (EMVValue.flat v) → v = [] →
        amountMatchesOf tlv total = true) := by
  refine ⟨?_, ?_, ?_⟩
  · intro hnone
    have hred : amountOf tlv = none := by
      simp [amountOf, hnone]
    unfold amountMatchesOf
    rw [hred]
  · intro v hv hne
    have hvne : v.isEmpty = false := by
      cases v
      · exact absurd rfl hne
      · rfl
    have hred : amountOf tlv = some (jsNumber v) := by
      simp [amountOf, hv, hvne]
    unfold amountMatchesOf
    rw [hred]
    rcases hq : jsNumber v with _ | q
    · show false = true ↔ _
      simp
    · show decide (|q - total| < 1 / 100) = true ↔ _
      simp only [decide_eq_true_eq]
      constructor
      · intro h
        exact ⟨q, rfl, h⟩
      · rintro ⟨q2, hq2, habs⟩
        obtain rfl : q = q2 := Option.some.inj hq2
        exact habs
  · intro v hv hve
    subst hve
    have hred : amountOf tlv = none := by
      simp [amountOf, hv]
    unfold amountMatchesOf
    rw [hred]

/-- C7 witness: a tag-54 amount of "100.00" against an expected amount of
100.004 matches exactly per the tolerance rule. -/
theorem amount_tolerance_witness :
    (amountMatchesOf [((['5', '4'] : JStr), EMVValue.flat "100.00".toList)]
        (100004 / 1000 : ℚ) = true
      ↔ ∃ q, jsNumber "100.00".toList = some q
          ∧ |q - (100004 / 1000 : ℚ)| < 1 / 100)
    ∧ amountMatchesOf [((['5', '4'] : JStr), EMVValue.flat "100.00".toList)]
        (100004 / 1000 : ℚ) = true :=
  ⟨(amount_tolerance [((['5', '4'] : JStr), EMVValue.flat "100.00".toList)]
      (100004 / 1000 : ℚ)).2.1 "100.00".toList rfl (by decide),
   by
    rw [(amount_tolerance [((['5', '4'] : JStr), EMVValue.flat "100.00".toList)]
      (100004 / 1000 : ℚ)).2.1 "100.00".toList rfl (by decide)]
    refine ⟨100, ?_, by rw [abs_sub_lt_iff]; constructor <;> norm_num⟩
    simp +decide [jsNumber, jsDecimalVal, radixDigitsVal, tenPow, isJsSpace,
      digitVal?, List.takeWhile, List.dropWhile]⟩
